import Mathlib

/-!
Verification of the Lexmancer training-data tools
(`Tools/fix_training_data.py` and `Tools/analyze_training_diversity.py`).

The Python sources are shallowly embedded below:

* JSON values are the inductive type `Json`; a parsed top-level candidate is a
  Python dict, embedded as an association list `Obj` (candidate spans always
  start with the character `{`, so a successful `json.loads` yields a dict).
  `json.loads` itself is an external library routine; it is abstracted as a
  parameter `p : List Char → Option Obj` (`none` models `json.JSONDecodeError`).
* Python floats are embedded as real numbers `ℝ`; `math.log2 x` is
  `Real.logb 2 x`.
* A Python function that can raise `ZeroDivisionError` is embedded with
  `Option` (`none` = the exception); one that can raise `TypeError` is embedded
  with `Except PyErr` (`.error` = the exception).
* `collections.Counter` is an insertion-ordered association list `Counter κ`.
-/

/-- Embedded JSON values (Python objects produced by `json.loads`).
Numbers are embedded as rationals; the claims under study never depend on
floating-point rounding. -/
inductive Json : Type where
  | null : Json
  | bool (b : Bool) : Json
  | num (q : ℚ) : Json
  | str (s : String) : Json
  | arr (elems : List Json) : Json
  | obj (fields : List (String × Json)) : Json

/-- A parsed top-level candidate object: a Python dict from `json.loads`,
embedded as an association list (keys distinct in actual pipeline outputs). -/
abbrev Obj : Type := List (String × Json)

/-- Python `key in d` for a dict `d`. -/
def hasKey (o : Obj) (k : String) : Bool :=
  o.any (fun kv => kv.1 = k)

/-- Python `d[key]` / `d.get(key)` for a dict: value of the key, if present. -/
def lookupKey (o : Obj) (k : String) : Option Json :=
  (o.find? (fun kv => kv.1 = k)).map (fun kv => kv.2)

/-- Scanner state of `extract_json_objects` in `fix_training_data.py`:
the variables `depth`, `in_object` and `current_obj` of the character loop. -/
structure ScanState : Type where
  depth : Int
  inObject : Bool
  buf : List Char
deriving DecidableEq, Repr

/-- Initial scanner state (`depth = 0`, `in_object = False`, `current_obj = ""`). -/
def initScan : ScanState := ⟨0, false, []⟩

/-- One iteration of the character loop of `extract_json_objects`
(`fix_training_data.py` lines 23-46), with the `try: json.loads ...` body
abstracted out: the second component is the candidate span emitted by this
character, if any.  Mirrors the source statement by statement:
`if char == '{'` (reset/flag at depth 0, then increment), `if in_object`
(append the character), `if char == '}'` (decrement, emit at zero). -/
def braceStep (st : ScanState) (c : Char) : ScanState × Option (List Char) :=
  let st1 : ScanState :=
    if c = '{' then
      { depth := st.depth + 1
        inObject := if st.depth = 0 then true else st.inObject
        buf := if st.depth = 0 then [] else st.buf }
    else st
  let st2 : ScanState :=
    if st1.inObject then { st1 with buf := st1.buf ++ [c] } else st1
  if c = '}' then
    let d := st2.depth - 1
    if d = 0 ∧ st2.inObject then
      ({ st2 with depth := d, inObject := false }, some st2.buf)
    else
      ({ st2 with depth := d }, none)
  else (st2, none)

/-- The per-candidate body of the `try` block in `extract_json_objects`
(lines 38-46): parse the span; on success keep the object when it has both a
`name` and an `ability` key; a parse failure is skipped. -/
def gateParse (p : List Char → Option Obj) (s : List Char) : Option Obj :=
  match p s with
  | some o => if hasKey o "name" && hasKey o "ability" then some o else none
  | none => none

/-- Character loop of `extract_json_objects`, started from an arbitrary state
and accumulator. -/
def extractFold (p : List Char → Option Obj) (st : ScanState) (acc : List Obj)
    (text : List Char) : ScanState × List Obj :=
  text.foldl
    (fun sa c =>
      let (st', em) := braceStep sa.1 c
      (st', match em with
            | some s => sa.2 ++ (gateParse p s).toList
            | none => sa.2))
    (st, acc)

/-- `extract_json_objects(text)` from `fix_training_data.py` (lines 11-48),
parameterised by the JSON parser `p` (abstracting `json.loads`).  Returns the
list `objects`. -/
def extract_json_objects (p : List Char → Option Obj) (text : List Char) :
    List Obj :=
  (extractFold p initScan [] text).2

/-- Candidate-span scanner: the same character loop, recording every emitted
candidate span instead of parsing it.  This is the "ordered sequence of
candidate spans" of the specification. -/
def spanFold (st : ScanState) (acc : List (List Char)) (text : List Char) :
    ScanState × List (List Char) :=
  text.foldl
    (fun sa c =>
      let (st', em) := braceStep sa.1 c
      (st', sa.2 ++ em.toList))
    (st, acc)

/-- The ordered sequence of candidate spans emitted on `text`. -/
def candidateSpans (text : List Char) : List (List Char) :=
  (spanFold initScan [] text).2

/-- Scanner state after scanning `text` from the initial state. -/
def scanStateOf (text : List Char) : ScanState :=
  (spanFold initScan [] text).1

/-- State of the inline fallback extraction in `analyze_training_diversity.py`
`main` (lines 395-397): the variables `depth` and `current_obj`. -/
structure FbState : Type where
  depth : Int
  buf : List Char
deriving DecidableEq, Repr

/-- One iteration of the fallback extraction loop in
`analyze_training_diversity.py` `main` (lines 399-416): `if char == '{'`
(reset buffer at depth 0, increment), `if depth > 0` (append character),
`if char == '}'` (decrement, emit at zero).  Second component: emitted span. -/
def fbStep (st : FbState) (c : Char) : FbState × Option (List Char) :=
  let st1 : FbState :=
    if c = '{' then
      { depth := st.depth + 1
        buf := if st.depth = 0 then [] else st.buf }
    else st
  let st2 : FbState :=
    if st1.depth > 0 then { st1 with buf := st1.buf ++ [c] } else st1
  if c = '}' then
    let d := st2.depth - 1
    if d = 0 then ({ st2 with depth := d }, some st2.buf)
    else ({ st2 with depth := d }, none)
  else (st2, none)

/-- Fallback extraction loop from an arbitrary state and accumulator.  The
`try/except` body applies the same gate (`'name' in obj and 'ability' in obj`);
the bare `except` swallows the parse failure (`gateParse p s = none`). -/
def fbFold (p : List Char → Option Obj) (st : FbState) (acc : List Obj)
    (text : List Char) : FbState × List Obj :=
  text.foldl
    (fun sa c =>
      let (st', em) := fbStep sa.1 c
      (st', match em with
            | some s => sa.2 ++ (gateParse p s).toList
            | none => sa.2))
    (st, acc)

/-- The inline fallback extraction of `analyze_training_diversity.py` `main`
(lines 393-416): the list `data` it builds from the raw text. -/
def fallback_extract (p : List Char → Option Obj) (text : List Char) :
    List Obj :=
  (fbFold p ⟨0, []⟩ [] text).2

/-- Insertion-ordered `collections.Counter`: association list key → count. -/
abbrev Counter (κ : Type) : Type := List (κ × Nat)

/-- Python `counter[k] += 1`: bump an existing key, else append it with count 1
(Python dicts preserve insertion order). -/
def counterIncr {κ : Type} [DecidableEq κ] (c : Counter κ) (k : κ) : Counter κ :=
  if c.any (fun e => e.1 = k) then
    c.map (fun e => if e.1 = k then (e.1, e.2 + 1) else e)
  else c ++ [(k, 1)]

/-- Python `Counter(iterable)`. -/
def counterOfList {κ : Type} [DecidableEq κ] (l : List κ) : Counter κ :=
  l.foldl counterIncr []

/-- Python `counts.values()`. -/
def counterVals {κ : Type} (c : Counter κ) : List Nat :=
  c.map (fun e => e.2)

/-- `DiversityAnalyzer.shannon_entropy` (`analyze_training_diversity.py`
lines 18-29): `total = sum(counts.values())`; `0.0` when the total is zero;
otherwise `entropy -= p * log2(p)` over the positive counts. -/
noncomputable def shannon_entropy {κ : Type} (counts : Counter κ) : ℝ :=
  let total := (counterVals counts).sum
  if total = 0 then 0
  else
    (counterVals counts).foldl
      (fun (e : ℝ) (c : Nat) =>
        if 0 < c then e - ((c : ℝ) / (total : ℝ)) * Real.logb 2 ((c : ℝ) / (total : ℝ))
        else e)
      0

/-- Arguments of a script node that the analyzer reads
(`args.get('shape'/'movement'/'status', default)`). -/
structure ScriptArgs : Type where
  shape : Option String
  movement : Option String
  status : Option String
deriving DecidableEq, Repr

/-- Python `{}` as a default for `script.get('args', {})`. -/
def emptyArgs : ScriptArgs := ⟨none, none, none⟩

/-- One script node of an ability effect: `action` tag, `args` mapping, and the
recursive `on_hit` chain (absent key modelled as `none` resp. `[]`). -/
inductive ScriptNode : Type where
  | mk (action : Option String) (args : Option ScriptArgs) (onHit : List ScriptNode)

/-- Python `script.get('action')`. -/
def ScriptNode.action : ScriptNode → Option String
  | .mk a _ _ => a

/-- Python `script.get('args', {})` before the default is applied. -/
def ScriptNode.args : ScriptNode → Option ScriptArgs
  | .mk _ g _ => g

/-- Python `script.get('on_hit', [])`. -/
def ScriptNode.onHit : ScriptNode → List ScriptNode
  | .mk _ _ h => h

/-- One effect of an ability: `effect['script']`. -/
structure Effect : Type where
  script : List ScriptNode

/-- The `ability` sub-object as the analyzer reads it. -/
structure Ability : Type where
  primitives : List String
  effects : List Effect

/-- One accepted ability record as the analyzer reads it
(`entry['ability']`). -/
structure Entry : Type where
  ability : Ability

/-- The nested helper `get_max_depth` of `DiversityAnalyzer.analyze_complexity`
(lines 144-148): `max_d = depth; for on_hit in script_item.get('on_hit', []):
max_d = max(max_d, get_max_depth(on_hit, depth + 1)); return max_d`. -/
def get_max_depth : ScriptNode → Nat → Nat
  | .mk _ _ onHit, depth =>
      onHit.attach.foldl (fun m c => max m (get_max_depth c.1 (depth + 1))) depth
termination_by s _ => sizeOf s
decreasing_by
  have h := List.sizeOf_lt_of_mem c.2
  simp only [ScriptNode.mk.sizeOf_spec]
  omega

/-- The nested helper `extract_statuses` of
`DiversityAnalyzer.analyze_status_effects` (lines 121-126), with the mutated
closure counter made an explicit accumulator: tally `args.get('status',
'unknown')` at every `apply_status` node, then recurse into `on_hit`. -/
def extract_statuses : Counter String → ScriptNode → Counter String
  | acc, .mk action args onHit =>
      let acc1 :=
        if action = some "apply_status" then
          counterIncr acc (((args.getD emptyArgs).status).getD "unknown")
        else acc
      onHit.attach.foldl (fun a c => extract_statuses a c.1) acc1
termination_by _ s => sizeOf s
decreasing_by
  have h := List.sizeOf_lt_of_mem c.2
  simp only [ScriptNode.mk.sizeOf_spec]
  omega

/-- Python float division embedded over `ℝ` with a `Nat` divisor; `none`
models `ZeroDivisionError`. -/
noncomputable def pydiv (x : ℝ) (n : Nat) : Option ℝ :=
  if n = 0 then none else some (x / (n : ℝ))

/-- Python `tuple(sorted(entry['ability']['primitives']))` (the tuple is kept
as a sorted list). -/
def sortPrimitives (l : List String) : List String :=
  l.insertionSort (fun a b => a ≤ b)

/-- Result of `DiversityAnalyzer.analyze_element_combinations`. -/
structure ElemAnalysis : Type where
  unique_combinations : Nat
  max_possible : Nat
  coverage_percent : ℝ
  distribution : Counter (List String)
  entropy : ℝ
  max_entropy : ℝ
  evenness_percent : ℝ
  min_samples : Nat
  max_samples : Nat
  avg_samples : ℝ

/-- The `combos` counter of `analyze_element_combinations` (lines 33-36): the
loop `combos[tuple(sorted(entry['ability']['primitives']))] += 1`. -/
def combosOf (data : List Entry) : Counter (List String) :=
  data.foldl (fun c e => counterIncr c (sortPrimitives e.ability.primitives)) []

open Classical in
/-- `DiversityAnalyzer.analyze_element_combinations` (lines 31-59).  The one
unguarded division is `len(combos) / max_possible` (by the constant 28); the
evenness and average divisions are guarded by `if max_entropy > 0` resp.
`if combos` in the source, and are embedded as guarded conditionals. -/
noncomputable def analyze_element_combinations (data : List Entry) :
    Option ElemAnalysis := do
  let combos : Counter (List String) := combosOf data
  let max_possible : Nat := 28
  let q ← pydiv (combos.length : ℝ) max_possible
  let coverage := q * 100
  let entropy := shannon_entropy combos
  let max_entropy : ℝ := if combos ≠ [] then Real.logb 2 (combos.length : ℝ) else 0
  let evenness : ℝ := if 0 < max_entropy then entropy / max_entropy * 100 else 0
  pure
    { unique_combinations := combos.length
      max_possible := max_possible
      coverage_percent := coverage
      distribution := combos
      entropy := entropy
      max_entropy := max_entropy
      evenness_percent := evenness
      min_samples := if combos ≠ [] then (counterVals combos).min?.getD 0 else 0
      max_samples := if combos ≠ [] then (counterVals combos).max?.getD 0 else 0
      avg_samples :=
        if combos ≠ [] then ((counterVals combos).sum : ℝ) / (combos.length : ℝ)
        else 0 }

/-- Flattened per-record action sequence of `analyze_actions`: the tag
`script.get('action', 'unknown')` of every top-level script node, across all
effects, in order (`on_hit` children are deliberately not traversed). -/
def entrySequence (e : Entry) : List String :=
  (e.ability.effects.map (fun eff => eff.script.map (fun s => s.action.getD "unknown"))).flatten

/-- Result of `DiversityAnalyzer.analyze_actions`. -/
structure ActionAnalysis : Type where
  action_distribution : Counter String
  unique_actions : Nat
  entropy : ℝ
  unique_sequences : Nat
  sequence_entropy : ℝ
  sequence_diversity_percent : ℝ

/-- `DiversityAnalyzer.analyze_actions` (lines 61-86).  The single division is
`unique_sequences / self.n` where `self.n = len(self.data)`. -/
noncomputable def analyze_actions (data : List Entry) : Option ActionAnalysis := do
  let actions : Counter String := counterOfList (data.map entrySequence).flatten
  let action_sequences : List (List String) := data.map entrySequence
  let unique_sequences := action_sequences.dedup.length
  let sequence_entropy := shannon_entropy (counterOfList action_sequences)
  let q ← pydiv (unique_sequences : ℝ) data.length
  pure
    { action_distribution := actions
      unique_actions := actions.length
      entropy := shannon_entropy actions
      unique_sequences := unique_sequences
      sequence_entropy := sequence_entropy
      sequence_diversity_percent := q * 100 }

/-- Result of `DiversityAnalyzer.analyze_melee_attacks` (the non-`None` case). -/
structure MeleeAnalysis : Type where
  shapes : Counter String
  movements : Counter String
  shape_movement_combos : Counter (String × String)
  shape_entropy : ℝ
  movement_entropy : ℝ

/-- Loop body of `analyze_melee_attacks` (lines 97-104): at a `spawn_melee`
node, tally `args.get('shape', 'unknown')`, `args.get('movement',
'stationary')` and their pair. -/
def meleeStep (acc : Counter String × Counter String × Counter (String × String))
    (s : ScriptNode) :
    Counter String × Counter String × Counter (String × String) :=
  if s.action = some "spawn_melee" then
    let args := s.args.getD emptyArgs
    let shape := args.shape.getD "unknown"
    let movement := args.movement.getD "stationary"
    (counterIncr acc.1 shape, counterIncr acc.2.1 movement,
     counterIncr acc.2.2 (shape, movement))
  else acc

/-- `DiversityAnalyzer.analyze_melee_attacks` (lines 88-115): tallies `shape`,
`movement` and their pair over the top-level script nodes whose action is
`spawn_melee`; `none` (Python `None`) when no such node was seen. -/
noncomputable def analyze_melee_attacks (data : List Entry) : Option MeleeAnalysis :=
  let tallies :=
    data.foldl
      (fun acc e =>
        e.ability.effects.foldl (fun acc eff => eff.script.foldl meleeStep acc) acc)
      ([], [], [])
  if tallies.1 = [] then none
  else
    some
      { shapes := tallies.1
        movements := tallies.2.1
        shape_movement_combos := tallies.2.2
        shape_entropy := shannon_entropy tallies.1
        movement_entropy := shannon_entropy tallies.2.1 }

/-- Result of `DiversityAnalyzer.analyze_status_effects`. -/
structure StatusAnalysis : Type where
  distribution : Counter String
  unique_statuses : Nat
  entropy : ℝ

/-- `DiversityAnalyzer.analyze_status_effects` (lines 117-137): full-tree
recursive tally of `apply_status` statuses. -/
noncomputable def analyze_status_effects (data : List Entry) : StatusAnalysis :=
  let statuses : Counter String :=
    data.foldl
      (fun acc e =>
        e.ability.effects.foldl (fun acc eff => eff.script.foldl extract_statuses acc) acc)
      []
  { distribution := statuses
    unique_statuses := statuses.length
    entropy := shannon_entropy statuses }

/-- Result of `DiversityAnalyzer.analyze_complexity`. -/
structure ComplexityAnalysis : Type where
  avg_scripts_per_ability : ℝ
  min_scripts : Nat
  max_scripts : Nat
  avg_nesting_depth : ℝ
  max_nesting_depth : Nat
  complexity_entropy : ℝ

/-- `DiversityAnalyzer.analyze_complexity` (lines 139-169).  The divisions are
the two averages, by `len(script_lengths)` resp. `len(nested_depths)` (both
equal to the number of records). -/
noncomputable def analyze_complexity (data : List Entry) :
    Option ComplexityAnalysis := do
  let script_lengths : List Nat :=
    data.map (fun e => (e.ability.effects.map (fun eff => eff.script.length)).sum)
  let nested_depths : List Nat :=
    data.map (fun e =>
      e.ability.effects.foldl
        (fun m eff => eff.script.foldl (fun m s => max m (get_max_depth s 0)) m) 0)
  let avg_scripts ← pydiv ((script_lengths.sum : ℝ)) script_lengths.length
  let avg_nesting ← pydiv ((nested_depths.sum : ℝ)) nested_depths.length
  pure
    { avg_scripts_per_ability := avg_scripts
      min_scripts := script_lengths.min?.getD 0
      max_scripts := script_lengths.max?.getD 0
      avg_nesting_depth := avg_nesting
      max_nesting_depth := nested_depths.max?.getD 0
      complexity_entropy := shannon_entropy (counterOfList script_lengths) }

/-- `DiversityAnalyzer.calculate_overall_diversity_score` (lines 209-231):
the list `scores` in its source order, then `sum(scores) / len(scores)`. -/
noncomputable def calculate_overall_diversity_score (elements : ElemAnalysis)
    (actions : ActionAnalysis) (status_effects : StatusAnalysis)
    (complexity : ComplexityAnalysis) : ℝ :=
  let scores : List ℝ :=
    [elements.coverage_percent,
     elements.evenness_percent,
     actions.sequence_diversity_percent,
     min (complexity.complexity_entropy / Real.logb 2 5 * 100) 100,
     min ((status_effects.unique_statuses : ℝ) / 10 * 100) 100]
  scores.sum / (scores.length : ℝ)

/-- Python exceptions that `validate_ability` can raise (it calls `in`, `len`
and subscripting on dynamically typed values). -/
inductive PyErr : Type where
  | typeError : PyErr
  | keyError : PyErr
deriving DecidableEq, Repr

/-- Python `k in v` for a string needle `k`: key membership for dicts,
`==`-membership for lists (a string equals only an equal string), substring
test for strings, `TypeError` for `None`, booleans and numbers. -/
def pyContains (k : String) : Json → Except PyErr Bool
  | .obj kvs => .ok (kvs.any (fun kv => kv.1 = k))
  | .arr xs => .ok (xs.any (fun j => match j with | .str s => s = k | _ => false))
  | .str s => .ok (decide (k.toList <:+: s.toList))
  | .null => .error .typeError
  | .bool _ => .error .typeError
  | .num _ => .error .typeError

/-- Python `v[k]` for a string key `k`: dict lookup (`KeyError` when absent);
`TypeError` for every other value (list and string subscripts need integers). -/
def pySubscript (v : Json) (k : String) : Except PyErr Json :=
  match v with
  | .obj kvs =>
      match lookupKey kvs k with
      | some x => .ok x
      | none => .error .keyError
  | _ => .error .typeError

/-- Python `len(v)`: defined for strings, lists and dicts; `TypeError`
otherwise. -/
def pyLen : Json → Except PyErr Nat
  | .str s => .ok s.length
  | .arr xs => .ok xs.length
  | .obj kvs => .ok kvs.length
  | .null => .error .typeError
  | .bool _ => .error .typeError
  | .num _ => .error .typeError

/-- Python truthiness of a JSON value. -/
def pyTruthy : Json → Bool
  | .null => false
  | .bool b => b
  | .num q => decide (q ≠ 0)
  | .str s => decide (s ≠ "")
  | .arr xs => !xs.isEmpty
  | .obj kvs => !kvs.isEmpty

/-- The primitives test of `validate_ability` (`fix_training_data.py` line 58):
`'primitives' not in ability or len(ability['primitives']) != 2` with Python
short-circuiting; `.ok true` means the check passed. -/
def primitivesChk (ability : Json) : Except PyErr Bool := do
  let b ← pyContains "primitives" ability
  if b then do
    let v ← pySubscript ability "primitives"
    let n ← pyLen v
    pure (decide (n = 2))
  else pure false

/-- The effects test of `validate_ability` (line 61):
`'effects' not in ability or not ability['effects']`; `.ok true` = passed. -/
def effectsChk (ability : Json) : Except PyErr Bool := do
  let b ← pyContains "effects" ability
  if b then do
    let v ← pySubscript ability "effects"
    pure (pyTruthy v)
  else pure false

/-- `validate_ability(ability_obj)` from `fix_training_data.py` (lines 50-67).
The required-fields loop is the `find?` over the field list (first missing
field wins); then the three ability-shape tests in source order.  The
`.getD .null` is dead: the `ability` key is present in this branch. -/
def validate_ability (o : Obj) : Except PyErr (Bool × String) :=
  match ["name", "description", "color", "ability"].find? (fun f => !(hasKey o f)) with
  | some f => .ok (false, "Missing field: " ++ f)
  | none => do
    let ability := (lookupKey o "ability").getD .null
    let pc ← primitivesChk ability
    if !pc then pure (false, "Invalid primitives (must have exactly 2)")
    else do
      let ec ← effectsChk ability
      if !ec then pure (false, "Missing effects")
      else do
        let cc ← pyContains "cooldown" ability
        if !cc then pure (false, "Missing cooldown")
        else pure (true, "OK")

/-- The `ability` value of a candidate object (Python `ability_obj['ability']`
as `validate_ability` reads it). -/
def abilityValOf (o : Obj) : Json :=
  (lookupKey o "ability").getD .null

/-- Specification-side reading of "`ability.primitives` is present with length
exactly 2": the ability value is a mapping with a `primitives` key whose value
has Python length 2. -/
def primitivesOkSpec : Json → Bool
  | .obj kvs =>
      match lookupKey kvs "primitives" with
      | some v => match pyLen v with | .ok n => decide (n = 2) | .error _ => false
      | none => false
  | _ => false

/-- Specification-side reading of "`ability.effects` is present and
non-empty". -/
def effectsOkSpec : Json → Bool
  | .obj kvs =>
      match lookupKey kvs "effects" with
      | some v => pyTruthy v
      | none => false
  | _ => false

/-- Specification-side reading of "`ability.cooldown` is present". -/
def cooldownOkSpec : Json → Bool
  | .obj kvs => hasKey kvs "cooldown"
  | _ => false

/-- Specification-side "first violated constraint" and its reason string, in
the order the constraints are stated: required top-level fields, then
primitives, effects, cooldown; `none` when every constraint holds. -/
def firstViolation (o : Obj) : Option String :=
  if ¬ hasKey o "name" then some "Missing field: name"
  else if ¬ hasKey o "description" then some "Missing field: description"
  else if ¬ hasKey o "color" then some "Missing field: color"
  else if ¬ hasKey o "ability" then some "Missing field: ability"
  else if ¬ primitivesOkSpec (abilityValOf o) then
    some "Invalid primitives (must have exactly 2)"
  else if ¬ effectsOkSpec (abilityValOf o) then some "Missing effects"
  else if ¬ cooldownOkSpec (abilityValOf o) then some "Missing cooldown"
  else none

/-- The validation loop of `fix_training_data.py` `main` (lines 89-95): keep,
in order, the objects on which `validate_ability` returns `is_valid = True`;
an exception raised by `validate_ability` propagates out of the loop. -/
def mainValidate : List Obj → Except PyErr (List Obj)
  | [] => .ok []
  | o :: rest => do
    let r ← validate_ability o
    let tail ← mainValidate rest
    if r.1 then pure (o :: tail) else pure tail

/-- Count of `{` minus count of `}` in a span. -/
def braceDelta (s : List Char) : Int :=
  (s.count '{' : Int) - (s.count '}' : Int)

/-- Scanner invariant: while the scanner is inside an object, the depth
counter equals the brace balance of the buffer and is at least 1. -/
def ScanInv (st : ScanState) : Prop :=
  st.inObject = true → st.depth = braceDelta st.buf ∧ 1 ≤ st.depth

theorem braceDelta_append_one (s : List Char) (c : Char) :
    braceDelta (s ++ [c]) =
      braceDelta s + (if c = '{' then 1 else 0) - (if c = '}' then 1 else 0) := by
  simp only [braceDelta, List.count_append, List.count_singleton']
  by_cases h1 : c = '{' <;> by_cases h2 : c = '}' <;>
    simp [h1, h2] <;> omega


theorem braceStep_open_zero (io : Bool) (buf : List Char) :
    braceStep ⟨0, io, buf⟩ '{' = (⟨1, true, ['{']⟩, none) := by
  simp [braceStep]

theorem braceStep_open_in {d : Int} (hd : d ≠ 0) (buf : List Char) :
    braceStep ⟨d, true, buf⟩ '{' = (⟨d + 1, true, buf ++ ['{']⟩, none) := by
  simp [braceStep, hd]

theorem braceStep_open_out {d : Int} (hd : d ≠ 0) (buf : List Char) :
    braceStep ⟨d, false, buf⟩ '{' = (⟨d + 1, false, buf⟩, none) := by
  simp [braceStep, hd]

theorem braceStep_close_in_one (buf : List Char) :
    braceStep ⟨1, true, buf⟩ '}' =
      (⟨0, false, buf ++ ['}']⟩, some (buf ++ ['}'])) := by
  simp [braceStep]

theorem braceStep_close_in_ne {d : Int} (hd : d ≠ 1) (buf : List Char) :
    braceStep ⟨d, true, buf⟩ '}' = (⟨d - 1, true, buf ++ ['}']⟩, none) := by
  have h : ¬(d - 1 = 0) := by omega
  simp [braceStep, h]

theorem braceStep_close_out (d : Int) (buf : List Char) :
    braceStep ⟨d, false, buf⟩ '}' = (⟨d - 1, false, buf⟩, none) := by
  simp [braceStep]

theorem braceStep_other_in {c : Char} (hc1 : c ≠ '{') (hc2 : c ≠ '}')
    (d : Int) (buf : List Char) :
    braceStep ⟨d, true, buf⟩ c = (⟨d, true, buf ++ [c]⟩, none) := by
  simp [braceStep, hc1, hc2]

theorem braceStep_other_out {c : Char} (hc1 : c ≠ '{') (hc2 : c ≠ '}')
    (d : Int) (buf : List Char) :
    braceStep ⟨d, false, buf⟩ c = (⟨d, false, buf⟩, none) := by
  simp [braceStep, hc1, hc2]

theorem braceStep_inv {st : ScanState} (c : Char) (h : ScanInv st) :
    ScanInv (braceStep st c).1 ∧
      (∀ s, (braceStep st c).2 = some s → braceDelta s = 0) := by
  rcases st with ⟨d, io, buf⟩
  by_cases hc1 : c = '{'
  · subst hc1
    by_cases hd : d = 0
    · subst hd
      rw [braceStep_open_zero]
      refine ⟨fun _ => ⟨?_, by norm_num⟩, fun s hs => by simp at hs⟩
      simp [braceDelta, List.count_singleton']
    · cases io with
      | false =>
          rw [braceStep_open_out hd]
          exact ⟨fun hio => by simp at hio, fun s hs => by simp at hs⟩
      | true =>
          obtain ⟨h1, h2⟩ := h rfl
          rw [braceStep_open_in hd]
          refine ⟨fun _ => ⟨?_, by simp at h2 ⊢; omega⟩, fun s hs => by simp at hs⟩
          show d + 1 = braceDelta (buf ++ ['{'])
          rw [braceDelta_append_one]
          simp at h1 ⊢
          omega
  · by_cases hc2 : c = '}'
    · subst hc2
      cases io with
      | false =>
          rw [braceStep_close_out]
          exact ⟨fun hio => by simp at hio, fun s hs => by simp at hs⟩
      | true =>
          obtain ⟨h1, h2⟩ := h rfl
          simp at h1 h2
          by_cases hd1 : d = 1
          · subst hd1
            rw [braceStep_close_in_one]
            refine ⟨fun hio => by simp at hio, fun s hs => ?_⟩
            simp at hs
            subst hs
            rw [braceDelta_append_one]
            simp
            omega
          · rw [braceStep_close_in_ne hd1]
            refine ⟨fun _ => ⟨?_, by simp; omega⟩, fun s hs => by simp at hs⟩
            show d - 1 = braceDelta (buf ++ ['}'])
            rw [braceDelta_append_one]
            simp
            omega
    · cases io with
      | false =>
          rw [braceStep_other_out hc1 hc2]
          exact ⟨fun hio => by simp at hio, fun s hs => by simp at hs⟩
      | true =>
          obtain ⟨h1, h2⟩ := h rfl
          simp at h1 h2
          rw [braceStep_other_in hc1 hc2]
          refine ⟨fun _ => ⟨?_, by simp; omega⟩, fun s hs => by simp at hs⟩
          show d = braceDelta (buf ++ [c])
          rw [braceDelta_append_one]
          simp [hc1, hc2]
          omega

theorem spanFold_nil (st : ScanState) (acc : List (List Char)) :
    spanFold st acc [] = (st, acc) := rfl

theorem spanFold_cons (st : ScanState) (acc : List (List Char)) (c : Char)
    (t : List Char) :
    spanFold st acc (c :: t) =
      spanFold (braceStep st c).1 (acc ++ (braceStep st c).2.toList) t := by
  unfold spanFold
  rw [List.foldl_cons]

theorem extractFold_nil (p : List Char → Option Obj) (st : ScanState)
    (acc : List Obj) : extractFold p st acc [] = (st, acc) := rfl

theorem extractFold_cons (p : List Char → Option Obj) (st : ScanState)
    (acc : List Obj) (c : Char) (t : List Char) :
    extractFold p st acc (c :: t) =
      extractFold p (braceStep st c).1
        (acc ++ ((braceStep st c).2.bind (gateParse p)).toList) t := by
  unfold extractFold
  rw [List.foldl_cons]
  rcases hb : braceStep st c with ⟨st', em⟩
  cases em with
  | none => simp [hb]
  | some s => cases hg : gateParse p s <;> simp [hb, hg]

theorem fbFold_nil (p : List Char → Option Obj) (st : FbState)
    (acc : List Obj) : fbFold p st acc [] = (st, acc) := rfl

theorem fbFold_cons (p : List Char → Option Obj) (st : FbState)
    (acc : List Obj) (c : Char) (t : List Char) :
    fbFold p st acc (c :: t) =
      fbFold p (fbStep st c).1
        (acc ++ ((fbStep st c).2.bind (gateParse p)).toList) t := by
  unfold fbFold
  rw [List.foldl_cons]
  rcases hb : fbStep st c with ⟨st', em⟩
  cases em with
  | none => simp [hb]
  | some s => cases hg : gateParse p s <;> simp [hb, hg]

theorem spanFold_inv (t : List Char) :
    ∀ (st : ScanState) (acc : List (List Char)), ScanInv st →
      (∀ s ∈ acc, braceDelta s = 0) →
      ScanInv (spanFold st acc t).1 ∧
        (∀ s ∈ (spanFold st acc t).2, braceDelta s = 0) := by
  induction t with
  | nil => intro st acc h ha; rw [spanFold_nil]; exact ⟨h, ha⟩
  | cons c t ih =>
      intro st acc h ha
      rw [spanFold_cons]
      obtain ⟨hinv, hem⟩ := braceStep_inv c h
      refine ih _ _ hinv ?_
      intro s hs
      rcases List.mem_append.mp hs with hs | hs
      · exact ha s hs
      · rcases hmem : (braceStep st c).2 with _ | s'
        · rw [hmem] at hs; simp at hs
        · rw [hmem] at hs
          simp at hs
          subst hs
          exact hem s hmem

theorem spanFold_append (st : ScanState) (acc : List (List Char))
    (t1 t2 : List Char) :
    spanFold st acc (t1 ++ t2) =
      spanFold (spanFold st acc t1).1 (spanFold st acc t1).2 t2 := by
  unfold spanFold
  rw [List.foldl_append]

theorem extractFold_append (p : List Char → Option Obj) (st : ScanState)
    (acc : List Obj) (t1 t2 : List Char) :
    extractFold p st acc (t1 ++ t2) =
      extractFold p (extractFold p st acc t1).1 (extractFold p st acc t1).2 t2 := by
  unfold extractFold
  rw [List.foldl_append]

theorem extractFold_eq_filterMap (p : List Char → Option Obj) (t : List Char) :
    ∀ (st : ScanState) (acc1 : List Obj) (acc2 : List (List Char)),
      acc1 = acc2.filterMap (gateParse p) →
      (extractFold p st acc1 t).1 = (spanFold st acc2 t).1 ∧
        (extractFold p st acc1 t).2 = ((spanFold st acc2 t).2).filterMap (gateParse p) := by
  induction t with
  | nil =>
      intro st acc1 acc2 h
      rw [extractFold_nil, spanFold_nil]
      exact ⟨rfl, h⟩
  | cons c t ih =>
      intro st acc1 acc2 h
      rw [extractFold_cons, spanFold_cons]
      refine ih _ _ _ ?_
      rw [List.filterMap_append, ← h]
      rcases (braceStep st c).2 with _ | s
      · simp
      · simp only [Option.toList_some, Option.some_bind]
        cases hg : gateParse p s <;> simp [hg]

theorem extract_json_objects_eq (p : List Char → Option Obj) (t : List Char) :
    extract_json_objects p t = (candidateSpans t).filterMap (gateParse p) :=
  (extractFold_eq_filterMap p t initScan [] [] rfl).2

/-- Buffer-insensitive similarity of scanner states: equal depth, equal flag,
and equal buffer whenever the scanner is inside an object. -/
def ScanSim (st st' : ScanState) : Prop :=
  st.depth = st'.depth ∧ st.inObject = st'.inObject ∧
    (st.inObject = true → st.buf = st'.buf)

theorem scanSim_refl (st : ScanState) : ScanSim st st :=
  ⟨rfl, rfl, fun _ => rfl⟩

theorem braceStep_sim {st st' : ScanState} (c : Char) (h : ScanSim st st') :
    (braceStep st c).2 = (braceStep st' c).2 ∧
      ScanSim (braceStep st c).1 (braceStep st' c).1 := by
  rcases st with ⟨d, io, buf⟩
  rcases st' with ⟨d', io', buf'⟩
  obtain ⟨h1, h2, h3⟩ := h
  simp only at h1 h2 h3
  subst h1
  subst h2
  cases io with
  | true =>
      have hb := h3 rfl
      subst hb
      exact ⟨rfl, scanSim_refl _⟩
  | false =>
      by_cases hc1 : c = '{'
      · subst hc1
        by_cases hd : d = 0
        · subst hd
          rw [braceStep_open_zero, braceStep_open_zero]
          exact ⟨rfl, scanSim_refl _⟩
        · rw [braceStep_open_out hd, braceStep_open_out hd]
          exact ⟨rfl, rfl, rfl, fun hio => by simp at hio⟩
      · by_cases hc2 : c = '}'
        · subst hc2
          rw [braceStep_close_out, braceStep_close_out]
          exact ⟨rfl, rfl, rfl, fun hio => by simp at hio⟩
        · rw [braceStep_other_out hc1 hc2, braceStep_other_out hc1 hc2]
          exact ⟨rfl, rfl, rfl, fun hio => by simp at hio⟩

theorem spanFold_sim (t : List Char) :
    ∀ (st st' : ScanState) (acc : List (List Char)), ScanSim st st' →
      (spanFold st acc t).2 = (spanFold st' acc t).2 ∧
        ScanSim (spanFold st acc t).1 (spanFold st' acc t).1 := by
  induction t with
  | nil =>
      intro st st' acc h
      rw [spanFold_nil, spanFold_nil]
      exact ⟨rfl, h⟩
  | cons c t ih =>
      intro st st' acc h
      rw [spanFold_cons, spanFold_cons]
      obtain ⟨hem, hsim⟩ := braceStep_sim c h
      rw [hem]
      exact ih _ _ _ hsim

theorem fbStep_open_zero (buf : List Char) :
    fbStep ⟨0, buf⟩ '{' = (⟨1, ['{']⟩, none) := by
  simp [fbStep]

theorem fbStep_open_pos {d : Int} (hd : 1 ≤ d) (buf : List Char) :
    fbStep ⟨d, buf⟩ '{' = (⟨d + 1, buf ++ ['{']⟩, none) := by
  have h0 : ¬(d = 0) := by omega
  have h1 : d + 1 > 0 := by omega
  simp [fbStep, h0, h1]

theorem fbStep_open_neg {d : Int} (hd : d < 0) (buf : List Char) :
    fbStep ⟨d, buf⟩ '{' = (⟨d + 1, buf⟩, none) := by
  have h0 : ¬(d = 0) := by omega
  have h1 : ¬(d + 1 > 0) := by omega
  simp [fbStep, h0, h1]

theorem fbStep_close_one (buf : List Char) :
    fbStep ⟨1, buf⟩ '}' = (⟨0, buf ++ ['}']⟩, some (buf ++ ['}'])) := by
  simp [fbStep]

theorem fbStep_close_ge_two {d : Int} (hd : 2 ≤ d) (buf : List Char) :
    fbStep ⟨d, buf⟩ '}' = (⟨d - 1, buf ++ ['}']⟩, none) := by
  have h1 : d > 0 := by omega
  have h2 : ¬(d - 1 = 0) := by omega
  simp [fbStep, h1, h2]

theorem fbStep_close_nonpos {d : Int} (hd : d ≤ 0) (buf : List Char) :
    fbStep ⟨d, buf⟩ '}' = (⟨d - 1, buf⟩, none) := by
  have h1 : ¬(d > 0) := by omega
  have h2 : ¬(d - 1 = 0) := by omega
  simp [fbStep, h1, h2]

theorem fbStep_other_pos {c : Char} (hc1 : c ≠ '{') (hc2 : c ≠ '}')
    {d : Int} (hd : 1 ≤ d) (buf : List Char) :
    fbStep ⟨d, buf⟩ c = (⟨d, buf ++ [c]⟩, none) := by
  have h1 : d > 0 := by omega
  simp [fbStep, hc1, hc2, h1]

theorem fbStep_other_nonpos {c : Char} (hc1 : c ≠ '{') (hc2 : c ≠ '}')
    {d : Int} (hd : d ≤ 0) (buf : List Char) :
    fbStep ⟨d, buf⟩ c = (⟨d, buf⟩, none) := by
  have h1 : ¬(d > 0) := by omega
  simp [fbStep, hc1, hc2, h1]

/-- Correspondence between a state of `extract_json_objects` and a state of
the fallback loop: equal depths, the `in_object` flag holds exactly when the
depth is at least 1, and the buffers agree while inside an object. -/
def FixFbRel (st : ScanState) (fb : FbState) : Prop :=
  st.depth = fb.depth ∧ st.inObject = decide (1 ≤ st.depth) ∧
    (st.inObject = true → st.buf = fb.buf)

theorem braceStep_fbStep {st : ScanState} {fb : FbState} (c : Char)
    (h : FixFbRel st fb) :
    (braceStep st c).2 = (fbStep fb c).2 ∧
      FixFbRel (braceStep st c).1 (fbStep fb c).1 := by
  rcases st with ⟨d, io, buf⟩
  rcases fb with ⟨d', buf'⟩
  obtain ⟨h1, h2, h3⟩ := h
  simp only at h1 h2 h3
  subst h1
  by_cases hc1 : c = '{'
  · subst hc1
    rcases lt_trichotomy d 0 with hd | hd | hd
    · have hio : io = false := by rw [h2]; simp; omega
      subst hio
      have hne : d ≠ 0 := by omega
      rw [braceStep_open_out hne, fbStep_open_neg hd]
      refine ⟨rfl, rfl, ?_, fun hio => by simp at hio⟩
      simp; omega
    · subst hd
      have hio : io = false := by rw [h2]; simp
      subst hio
      rw [braceStep_open_zero, fbStep_open_zero]
      exact ⟨rfl, rfl, by simp, fun _ => rfl⟩
    · have hd1 : 1 ≤ d := by omega
      have hio : io = true := by rw [h2]; simp; omega
      subst hio
      have hb := h3 rfl
      subst hb
      have hne : d ≠ 0 := by omega
      rw [braceStep_open_in hne, fbStep_open_pos hd1]
      refine ⟨rfl, rfl, ?_, fun _ => rfl⟩
      simp; omega
  · by_cases hc2 : c = '}'
    · subst hc2
      rcases le_or_lt d 0 with hd | hd
      · have hio : io = false := by rw [h2]; simp; omega
        subst hio
        rw [braceStep_close_out, fbStep_close_nonpos hd]
        refine ⟨rfl, rfl, ?_, fun hio => by simp at hio⟩
        simp; omega
      · have hio : io = true := by rw [h2]; simp; omega
        subst hio
        have hb := h3 rfl
        subst hb
        by_cases hd1 : d = 1
        · subst hd1
          rw [braceStep_close_in_one, fbStep_close_one]
          exact ⟨rfl, rfl, by simp, fun _ => rfl⟩
        · have hd2 : 2 ≤ d := by omega
          rw [braceStep_close_in_ne hd1, fbStep_close_ge_two hd2]
          refine ⟨rfl, rfl, ?_, fun _ => rfl⟩
          simp; omega
    · rcases le_or_lt d 0 with hd | hd
      · have hio : io = false := by rw [h2]; simp; omega
        subst hio
        rw [braceStep_other_out hc1 hc2, fbStep_other_nonpos hc1 hc2 hd]
        refine ⟨rfl, rfl, ?_, fun hio => by simp at hio⟩
        simp; omega
      · have hd1 : 1 ≤ d := by omega
        have hio : io = true := by rw [h2]; simp; omega
        subst hio
        have hb := h3 rfl
        subst hb
        rw [braceStep_other_in hc1 hc2, fbStep_other_pos hc1 hc2 hd1]
        refine ⟨rfl, rfl, ?_, fun _ => rfl⟩
        simp; omega

theorem extractFold_fbFold (p : List Char → Option Obj) (t : List Char) :
    ∀ (st : ScanState) (fb : FbState) (acc : List Obj), FixFbRel st fb →
      (extractFold p st acc t).2 = (fbFold p fb acc t).2 ∧
        FixFbRel (extractFold p st acc t).1 (fbFold p fb acc t).1 := by
  induction t with
  | nil =>
      intro st fb acc h
      rw [extractFold_nil, fbFold_nil]
      exact ⟨rfl, h⟩
  | cons c t ih =>
      intro st fb acc h
      rw [extractFold_cons, fbFold_cons]
      obtain ⟨hem, hrel⟩ := braceStep_fbStep c h
      rw [hem]
      exact ih _ _ _ hrel

theorem spanFold_acc (t : List Char) :
    ∀ (st : ScanState) (acc : List (List Char)),
      (spanFold st acc t).1 = (spanFold st [] t).1 ∧
        (spanFold st acc t).2 = acc ++ (spanFold st [] t).2 := by
  induction t with
  | nil => intro st acc; rw [spanFold_nil, spanFold_nil]; simp
  | cons c t ih =>
      intro st acc
      rw [spanFold_cons, spanFold_cons]
      simp only [List.nil_append]
      obtain ⟨ha1, ha2⟩ := ih (braceStep st c).1 (acc ++ (braceStep st c).2.toList)
      obtain ⟨hb1, hb2⟩ := ih (braceStep st c).1 ((braceStep st c).2.toList)
      refine ⟨ha1.trans hb1.symm, ?_⟩
      rw [ha2, hb2, List.append_assoc]

theorem gateParse_eq_some {p : List Char → Option Obj} {s : List Char} {o : Obj}
    (h : gateParse p s = some o) :
    p s = some o ∧ hasKey o "name" = true ∧ hasKey o "ability" = true := by
  unfold gateParse at h
  split at h
  next o' heq =>
    split at h
    next hg =>
      obtain rfl : o' = o := by injection h
      simp only [Bool.and_eq_true] at hg
      exact ⟨heq, hg.1, hg.2⟩
    next hg => simp at h
  next heq => simp at h

/-- C9: every element of the list returned by `extract_json_objects` is a
successfully parsed candidate span that contains both a `name` and an
`ability` key, and the output is exactly the parse-and-gate filtering of the
candidate spans in emission (closing-brace) order. -/
theorem c9_extract_parsed_ordered (p : List Char → Option Obj) (t : List Char) :
    extract_json_objects p t = (candidateSpans t).filterMap (gateParse p) ∧
      ∀ o ∈ extract_json_objects p t,
        hasKey o "name" = true ∧ hasKey o "ability" = true ∧
          ∃ s ∈ candidateSpans t, p s = some o := by
  refine ⟨extract_json_objects_eq p t, ?_⟩
  intro o ho
  rw [extract_json_objects_eq p t] at ho
  rw [List.mem_filterMap] at ho
  obtain ⟨s, hs, hg⟩ := ho
  obtain ⟨hp, hn, ha⟩ := gateParse_eq_some hg
  exact ⟨hn, ha, s, hs, hp⟩

/-- C8: the inline fallback extraction in the analysis `main` accepts exactly
the same ordered object sequence as `extract_json_objects`, for every input
text and every parser behaviour. -/
theorem c8_fallback_equiv (p : List Char → Option Obj) (t : List Char) :
    fallback_extract p t = extract_json_objects p t := by
  have hrel : FixFbRel initScan ⟨0, []⟩ := by
    refine ⟨rfl, by simp [initScan], fun hio => rfl⟩
  have h := extractFold_fbFold p t initScan ⟨0, []⟩ [] hrel
  exact h.1.symm

/-- C1 (corrected): the depth counter of `extract_json_objects` does become
negative: on the input `"}"` it ends at `-1`. -/
theorem c1_counterexample : (scanStateOf (String.toList "\x7d")).depth = -1 := by
  decide

/-- C1 (amended): every candidate span emitted by the scanner contains equally
many `{` and `}` characters, and the counter is at least 1 (in particular
non-negative) whenever the scanner is inside an object; it can go negative
only outside an object, on unmatched `}` characters. -/
theorem c1_balanced_spans (t : List Char) :
    (∀ s ∈ candidateSpans t, s.count '{' = s.count '}') ∧
      ((scanStateOf t).inObject = true → 1 ≤ (scanStateOf t).depth) := by
  have hinit : ScanInv initScan := by
    intro h
    simp [initScan] at h
  have h := spanFold_inv t initScan [] hinit (by intro s hs; simp at hs)
  constructor
  · intro s hs
    have hd := h.2 s hs
    unfold braceDelta at hd
    omega
  · intro hio
    exact (h.1 hio).2

theorem c1_witness :
    (∀ s ∈ candidateSpans (String.toList "\x7ba"), s.count '{' = s.count '}') ∧
      1 ≤ (scanStateOf (String.toList "\x7ba")).depth :=
  ⟨(c1_balanced_spans (String.toList "\x7ba")).1,
    (c1_balanced_spans (String.toList "\x7ba")).2 (by decide)⟩

theorem spanFold_split (st : ScanState) (t1 t2 : List Char) :
    (spanFold st [] (t1 ++ t2)).1 = (spanFold (spanFold st [] t1).1 [] t2).1 ∧
      (spanFold st [] (t1 ++ t2)).2 =
        (spanFold st [] t1).2 ++ (spanFold (spanFold st [] t1).1 [] t2).2 := by
  rw [spanFold_append]
  obtain ⟨a1, a2⟩ := spanFold_acc t2 (spanFold st [] t1).1 (spanFold st [] t1).2
  exact ⟨a1, by rw [a2]⟩

theorem gateParse_none {p : List Char → Option Obj} {s : List Char}
    (hp : p s = none) : gateParse p s = none := by
  simp [gateParse, hp]

/-- C6: a candidate span that fails to parse is skipped and the scan goes on:
if `s` is a complete candidate (scanned alone, it is emitted as the single
candidate span and returns the scanner to rest) and its parse fails, then
extraction over `t1 ++ s ++ t2` recovers exactly the objects recovered over
`t1 ++ t2`, whenever `t1` leaves the scanner at rest (depth 0, outside any
object). -/
theorem c6_malformed_candidate_skipped (p : List Char → Option Obj)
    (t1 s t2 : List Char)
    (h1 : (scanStateOf t1).depth = 0) (h2 : (scanStateOf t1).inObject = false)
    (h3 : candidateSpans s = [s])
    (h4 : (scanStateOf s).depth = 0) (h5 : (scanStateOf s).inObject = false)
    (hp : p s = none) :
    extract_json_objects p (t1 ++ s ++ t2) = extract_json_objects p (t1 ++ t2) := by
  have sim1 : ScanSim (scanStateOf t1) initScan := by
    refine ⟨h1, h2, fun hio => ?_⟩
    rw [h2] at hio
    cases hio
  have hs := spanFold_sim s (scanStateOf t1) initScan [] sim1
  have hspans_s : (spanFold (scanStateOf t1) [] s).2 = [s] := by
    rw [hs.1]; exact h3
  have hsim2 : ScanSim (spanFold (scanStateOf t1) [] s).1 (scanStateOf t1) := by
    obtain ⟨hd, hio, _⟩ := hs.2
    refine ⟨?_, ?_, fun hb => ?_⟩
    · rw [hd]
      show (scanStateOf s).depth = (scanStateOf t1).depth
      rw [h4, h1]
    · rw [hio]
      show (scanStateOf s).inObject = (scanStateOf t1).inObject
      rw [h5, h2]
    · rw [hio] at hb
      rw [show (spanFold initScan [] s).1 = scanStateOf s from rfl, h5] at hb
      cases hb
  have ht2 := spanFold_sim t2 (spanFold (scanStateOf t1) [] s).1 (scanStateOf t1) [] hsim2
  have assoc : t1 ++ s ++ t2 = t1 ++ (s ++ t2) := List.append_assoc t1 s t2
  rw [assoc, extract_json_objects_eq, extract_json_objects_eq]
  obtain ⟨e1, e2⟩ := spanFold_split initScan t1 (s ++ t2)
  obtain ⟨f1, f2⟩ := spanFold_split (scanStateOf t1) s t2
  obtain ⟨g1, g2⟩ := spanFold_split initScan t1 t2
  have hst : (spanFold initScan [] t1).1 = scanStateOf t1 := rfl
  have hcs : (spanFold initScan [] t1).2 = candidateSpans t1 := rfl
  have lhs_spans : candidateSpans (t1 ++ (s ++ t2)) =
      candidateSpans t1 ++ ([s] ++ (spanFold (scanStateOf t1) [] t2).2) := by
    show (spanFold initScan [] (t1 ++ (s ++ t2))).2 = _
    rw [e2, hst, hcs, f2, hspans_s, ht2.1]
  have rhs_spans : candidateSpans (t1 ++ t2) =
      candidateSpans t1 ++ (spanFold (scanStateOf t1) [] t2).2 := by
    show (spanFold initScan [] (t1 ++ t2)).2 = _
    rw [g2, hst, hcs]
  rw [lhs_spans, rhs_spans, List.filterMap_append, List.filterMap_append,
    List.filterMap_append]
  simp [gateParse_none hp]

theorem c6_witness :
    ((scanStateOf (String.toList "{}")).depth = 0 ∧
        (scanStateOf (String.toList "{}")).inObject = false ∧
        candidateSpans (String.toList "{]}") = [String.toList "{]}"] ∧
        (scanStateOf (String.toList "{]}")).depth = 0 ∧
        (scanStateOf (String.toList "{]}")).inObject = false) ∧
      extract_json_objects (fun _ => none)
          (String.toList "{}" ++ String.toList "{]}" ++ String.toList "{}") =
        extract_json_objects (fun _ => none)
          (String.toList "{}" ++ String.toList "{}") :=
  ⟨⟨by decide, by decide, by decide, by decide, by decide⟩,
    c6_malformed_candidate_skipped (fun _ => none)
      (String.toList "{}") (String.toList "{]}") (String.toList "{}")
      (by decide) (by decide) (by decide) (by decide) (by decide) rfl⟩

/-- Specification-side Shannon entropy formula: `-Σ (c/T) * log2 (c/T)` over
exactly the keys with positive count, `0.0` for total count zero. -/
noncomputable def shannonSpecFormula {κ : Type} (counts : Counter κ) : ℝ :=
  let total := (counterVals counts).sum
  if total = 0 then 0
  else
    -(((counterVals counts).filter (fun c => 0 < c)).map
        (fun (c : Nat) =>
          ((c : ℝ) / (total : ℝ)) * Real.logb 2 ((c : ℝ) / (total : ℝ)))).sum

theorem foldl_entropy_eq_sum (f : Nat → ℝ) (l : List Nat) :
    ∀ a : ℝ,
      l.foldl (fun e c => if 0 < c then e - f c else e) a =
        a - ((l.filter (fun c => 0 < c)).map f).sum := by
  induction l with
  | nil => intro a; simp
  | cons c t ih =>
      intro a
      by_cases hc : 0 < c
      · rw [List.foldl_cons, if_pos hc, ih (a - f c)]
        simp [List.filter_cons, hc]
        ring
      · rw [List.foldl_cons, if_neg hc, ih a]
        simp [List.filter_cons, hc]

/-- C2: `shannon_entropy` computes exactly the specified formula
`-Σ (c_k/T) log2 (c_k/T)` over the positive counts, with value `0.0` for a
distribution of total count zero. -/
theorem c2_shannon_entropy_spec {κ : Type} (counts : Counter κ) :
    shannon_entropy counts = shannonSpecFormula counts := by
  unfold shannon_entropy shannonSpecFormula
  by_cases h : (counterVals counts).sum = 0
  · simp [h]
  · simp only [if_neg h]
    rw [foldl_entropy_eq_sum]
    ring

theorem shannon_entropy_nonneg {κ : Type} (counts : Counter κ) :
    0 ≤ shannon_entropy counts := by
  rw [c2_shannon_entropy_spec]
  unfold shannonSpecFormula
  by_cases h : (counterVals counts).sum = 0
  · simp [h]
  · simp only [if_neg h]
    have hT : 0 < ((counterVals counts).sum : ℝ) := by
      have : 0 < (counterVals counts).sum := Nat.pos_of_ne_zero h
      exact_mod_cast this
    rw [neg_nonneg]
    have hbound : ∀ c ∈ (counterVals counts).filter (fun c => 0 < c),
        ((c : ℝ) / ((counterVals counts).sum : ℝ)) *
            Real.logb 2 ((c : ℝ) / ((counterVals counts).sum : ℝ)) ≤ 0 := by
      intro c hc
      have hmem := List.mem_of_mem_filter hc
      have hcpos : 0 < c := by
        have := List.of_mem_filter hc
        simpa using this
      have hle : c ≤ (counterVals counts).sum := List.le_sum_of_mem hmem
      have hp0 : 0 < (c : ℝ) / ((counterVals counts).sum : ℝ) := by
        apply div_pos _ hT
        exact_mod_cast hcpos
      have hp1 : (c : ℝ) / ((counterVals counts).sum : ℝ) ≤ 1 := by
        rw [div_le_one hT]
        exact_mod_cast hle
      have hlog : Real.logb 2 ((c : ℝ) / ((counterVals counts).sum : ℝ)) ≤ 0 :=
        Real.logb_nonpos (by norm_num) hp0.le hp1
      exact mul_nonpos_of_nonneg_of_nonpos hp0.le hlog
    calc (((counterVals counts).filter (fun c => 0 < c)).map
            (fun (c : Nat) => ((c : ℝ) / ((counterVals counts).sum : ℝ)) *
              Real.logb 2 ((c : ℝ) / ((counterVals counts).sum : ℝ)))).sum
        ≤ (((counterVals counts).filter (fun c => 0 < c)).map
            (fun (_ : Nat) => (0 : ℝ))).sum :=
          List.sum_le_sum hbound
      _ = 0 := by simp

theorem list_sum_map_neg (l : List Nat) (f : Nat → ℝ) :
    (l.map (fun c => -(f c))).sum = -((l.map f).sum) := by
  induction l with
  | nil => simp
  | cons c t ih => simp [ih]; ring

theorem list_sum_map_add (l : List Nat) (f g : Nat → ℝ) :
    (l.map (fun c => f c + g c)).sum = (l.map f).sum + (l.map g).sum := by
  induction l with
  | nil => simp
  | cons c t ih => simp [ih]; ring

theorem list_sum_map_mul_right (l : List Nat) (f : Nat → ℝ) (r : ℝ) :
    (l.map (fun c => f c * r)).sum = (l.map f).sum * r := by
  induction l with
  | nil => simp
  | cons c t ih => simp [ih]; ring

theorem list_sum_map_const (l : List Nat) (x : ℝ) :
    (l.map (fun (_ : Nat) => x)).sum = (l.length : ℝ) * x := by
  induction l with
  | nil => simp
  | cons c t ih => simp [ih]; ring

theorem list_sum_map_cast (l : List Nat) :
    (l.map (fun (c : Nat) => (c : ℝ))).sum = ((l.sum : Nat) : ℝ) := by
  induction l with
  | nil => simp
  | cons c t ih =>
      simp only [List.map_cons, List.sum_cons, ih, List.sum_cons]
      push_cast
      ring


theorem entropy_term_bound {p K : ℝ} (hp : 0 < p) (hK : 0 < K) :
    -(p * Real.logb 2 p) ≤ p * Real.logb 2 K + (1 / K - p) * (Real.log 2)⁻¹ := by
  have hlog2 : 0 < Real.log 2 := Real.log_pos (by norm_num)
  have hpk : 0 < p * K := mul_pos hp hK
  have hgibbs : Real.log ((p * K)⁻¹) ≤ (p * K)⁻¹ - 1 :=
    Real.log_le_sub_one_of_pos (inv_pos.mpr hpk)
  have h1 : -(p * Real.logb 2 p) - p * Real.logb 2 K =
      p * (Real.log ((p * K)⁻¹) / Real.log 2) := by
    rw [Real.log_inv, Real.log_mul hp.ne' hK.ne', ← Real.log_div_log,
      ← Real.log_div_log]
    ring
  have h2 : p * (Real.log ((p * K)⁻¹) / Real.log 2) ≤
      p * (((p * K)⁻¹ - 1) / Real.log 2) := by
    apply mul_le_mul_of_nonneg_left _ hp.le
    exact div_le_div_of_nonneg_right hgibbs hlog2.le
  have h3 : p * (((p * K)⁻¹ - 1) / Real.log 2) = (1 / K - p) * (Real.log 2)⁻¹ := by
    field_simp
    ring
  linarith [h1, h2, h3]

theorem bound_sum (v : List Nat) (T K L R : ℝ) :
    (v.map (fun (c : Nat) => ((c : ℝ) / T) * L + (1 / K - (c : ℝ) / T) * R)).sum =
      ((v.sum : Nat) : ℝ) / T * L +
        ((v.length : ℝ) / K - ((v.sum : Nat) : ℝ) / T) * R := by
  induction v with
  | nil => simp
  | cons c t ih =>
      simp only [List.map_cons, List.sum_cons, ih, List.sum_cons,
        List.length_cons]
      push_cast
      ring

/-- Gibbs bound specialised to all-positive counters: the Shannon entropy of a
counter whose counts are all positive is at most `log2` of its key count. -/
theorem shannon_entropy_le_logb_length {κ : Type} (counts : Counter κ)
    (hpos : ∀ c ∈ counterVals counts, 0 < c)
    (hT : (counterVals counts).sum ≠ 0) :
    shannon_entropy counts ≤ Real.logb 2 (counts.length : ℝ) := by
  rw [c2_shannon_entropy_spec]
  unfold shannonSpecFormula
  simp only [if_neg hT]
  set v := counterVals counts with hv
  have hvlen : v.length = counts.length := by
    rw [hv]
    exact List.length_map _ _
  have hfilter : v.filter (fun c => 0 < c) = v :=
    List.filter_eq_self.mpr (fun a ha => by simpa using hpos a ha)
  rw [hfilter]
  have hvne : v ≠ [] := by
    intro h
    rw [h] at hT
    exact hT rfl
  have hK0 : (0 : ℝ) < (counts.length : ℝ) := by
    have h0 : 0 < v.length := List.length_pos.mpr hvne
    rw [hvlen] at h0
    exact_mod_cast h0
  have hT0 : (0 : ℝ) < ((v.sum : Nat) : ℝ) := by
    have h0 : 0 < v.sum := Nat.pos_of_ne_zero hT
    exact_mod_cast h0
  rw [← list_sum_map_neg v
    (fun (c : Nat) => ((c : ℝ) / ((v.sum : Nat) : ℝ)) *
      Real.logb 2 ((c : ℝ) / ((v.sum : Nat) : ℝ)))]
  have hterm : ∀ c ∈ v,
      -(((c : ℝ) / ((v.sum : Nat) : ℝ)) *
          Real.logb 2 ((c : ℝ) / ((v.sum : Nat) : ℝ))) ≤
        ((c : ℝ) / ((v.sum : Nat) : ℝ)) * Real.logb 2 ((counts.length : ℝ)) +
          (1 / ((counts.length : ℝ)) - (c : ℝ) / ((v.sum : Nat) : ℝ)) *
            (Real.log 2)⁻¹ := by
    intro c hc
    have hcpos : 0 < c := hpos c hc
    have hp0 : 0 < (c : ℝ) / ((v.sum : Nat) : ℝ) :=
      div_pos (by exact_mod_cast hcpos) hT0
    exact entropy_term_bound hp0 hK0
  calc (v.map (fun (c : Nat) =>
          -(((c : ℝ) / ((v.sum : Nat) : ℝ)) *
            Real.logb 2 ((c : ℝ) / ((v.sum : Nat) : ℝ))))).sum
      ≤ (v.map (fun (c : Nat) =>
          ((c : ℝ) / ((v.sum : Nat) : ℝ)) * Real.logb 2 ((counts.length : ℝ)) +
            (1 / ((counts.length : ℝ)) - (c : ℝ) / ((v.sum : Nat) : ℝ)) *
              (Real.log 2)⁻¹)).sum := List.sum_le_sum hterm
    _ = Real.logb 2 ((counts.length : ℝ)) := by
        rw [bound_sum]
        rw [div_self hT0.ne', hvlen, div_self hK0.ne']
        ring

theorem counterIncr_map_fst {κ : Type} [DecidableEq κ] (c : Counter κ) (k : κ) :
    (counterIncr c k).map Prod.fst =
      if k ∈ c.map Prod.fst then c.map Prod.fst else c.map Prod.fst ++ [k] := by
  unfold counterIncr
  by_cases h : c.any (fun e => e.1 = k)
  · have hmem : k ∈ c.map Prod.fst := by
      simp only [List.any_eq_true, decide_eq_true_eq] at h
      obtain ⟨e, he, hek⟩ := h
      exact List.mem_map.mpr ⟨e, he, hek⟩
    rw [if_pos h, if_pos hmem, List.map_map]
    congr 1
    funext e
    by_cases h1 : e.1 = k <;> simp [h1]
  · have hmem : k ∉ c.map Prod.fst := by
      intro hk
      obtain ⟨e, he, hek⟩ := List.mem_map.mp hk
      apply h
      simp only [List.any_eq_true, decide_eq_true_eq]
      exact ⟨e, he, hek⟩
    rw [if_neg h, if_neg hmem, List.map_append]
    rfl

theorem counter_foldl_length {κ : Type} [DecidableEq κ] (l : List κ) :
    ∀ c : Counter κ, (c.map Prod.fst).Nodup →
      (l.foldl counterIncr c).length = ((c.map Prod.fst) ++ l).toFinset.card := by
  induction l with
  | nil =>
      intro c h
      simp only [List.foldl_nil, List.append_nil]
      rw [List.toFinset_card_of_nodup h, List.length_map]
  | cons k l ih =>
      intro c h
      rw [List.foldl_cons]
      by_cases hk : k ∈ c.map Prod.fst
      · have hkeys : (counterIncr c k).map Prod.fst = c.map Prod.fst := by
          rw [counterIncr_map_fst, if_pos hk]
        rw [ih (counterIncr c k) (by rw [hkeys]; exact h), hkeys]
        congr 1
        rw [List.toFinset_append, List.toFinset_append, List.toFinset_cons,
          Finset.union_insert,
          Finset.insert_eq_self.mpr
            (Finset.mem_union_left _ (List.mem_toFinset.mpr hk))]
      · have hkeys : (counterIncr c k).map Prod.fst = c.map Prod.fst ++ [k] := by
          rw [counterIncr_map_fst, if_neg hk]
        have hnodup : ((counterIncr c k).map Prod.fst).Nodup := by
          rw [hkeys]
          rw [List.nodup_append]
          exact ⟨h, List.nodup_singleton k,
            fun a ha hb => by simp at hb; subst hb; exact hk ha⟩
        rw [ih _ hnodup, hkeys, List.append_assoc]
        rfl

theorem counterOfList_length {κ : Type} [DecidableEq κ] (l : List κ) :
    (counterOfList l).length = l.dedup.length := by
  unfold counterOfList
  rw [counter_foldl_length l [] (by simp)]
  simp [List.card_toFinset]

theorem counterIncr_pos {κ : Type} [DecidableEq κ] {c : Counter κ}
    (h : ∀ e ∈ c, 0 < e.2) (k : κ) : ∀ e ∈ counterIncr c k, 0 < e.2 := by
  unfold counterIncr
  by_cases hc : c.any (fun e => e.1 = k)
  · rw [if_pos hc]
    intro e he
    obtain ⟨e', he', rfl⟩ := List.mem_map.mp he
    by_cases h1 : e'.1 = k
    · simp only [if_pos h1]
      omega
    · simp only [if_neg h1]
      exact h e' he'
  · rw [if_neg hc]
    intro e he
    rcases List.mem_append.mp he with he | he
    · exact h e he
    · simp at he
      rw [he]
      norm_num

theorem counter_foldl_pos {κ : Type} [DecidableEq κ] (l : List κ) :
    ∀ c : Counter κ, (∀ e ∈ c, 0 < e.2) →
      ∀ e ∈ l.foldl counterIncr c, 0 < e.2 := by
  induction l with
  | nil => intro c h; simpa using h
  | cons k l ih =>
      intro c h
      rw [List.foldl_cons]
      exact ih _ (counterIncr_pos h k)

theorem counterOfList_pos {κ : Type} [DecidableEq κ] (l : List κ) :
    ∀ e ∈ counterOfList l, 0 < e.2 :=
  counter_foldl_pos l [] (by simp)

theorem sortPrimitives_pair (s : String) : sortPrimitives [s, s] = [s, s] := by
  simp [sortPrimitives, List.insertionSort, List.orderedInsert]

theorem combosOf_eq (data : List Entry) :
    combosOf data =
      counterOfList (data.map (fun e => sortPrimitives e.ability.primitives)) := by
  unfold combosOf counterOfList
  rw [List.foldl_map]

/-- Specification-side count of distinct observed sorted primitive pairs. -/
def distinctPairs (data : List Entry) : Nat :=
  (data.map (fun e => sortPrimitives e.ability.primitives)).dedup.length

theorem combosOf_length (data : List Entry) :
    (combosOf data).length = distinctPairs data := by
  rw [combosOf_eq, counterOfList_length]
  rfl

/-- Evaluated form of `analyze_element_combinations`: the single unguarded
division is by the constant 28, so the analysis always succeeds and its
fields have this explicit shape. -/
theorem analyze_element_combinations_eq (data : List Entry) :
    analyze_element_combinations data = some
      { unique_combinations := (combosOf data).length
        max_possible := 28
        coverage_percent := ((combosOf data).length : ℝ) / (28 : ℝ) * 100
        distribution := combosOf data
        entropy := shannon_entropy (combosOf data)
        max_entropy :=
          if combosOf data ≠ [] then Real.logb 2 ((combosOf data).length : ℝ)
          else 0
        evenness_percent :=
          if 0 < (if combosOf data ≠ [] then
              Real.logb 2 ((combosOf data).length : ℝ) else 0) then
            shannon_entropy (combosOf data) /
                (if combosOf data ≠ [] then
                  Real.logb 2 ((combosOf data).length : ℝ) else 0) * 100
          else 0
        min_samples :=
          if combosOf data ≠ [] then (counterVals (combosOf data)).min?.getD 0
          else 0
        max_samples :=
          if combosOf data ≠ [] then (counterVals (combosOf data)).max?.getD 0
          else 0
        avg_samples :=
          if combosOf data ≠ [] then
            ((counterVals (combosOf data)).sum : ℝ) / ((combosOf data).length : ℝ)
          else 0 } := by
  unfold analyze_element_combinations pydiv
  norm_num

theorem counterVals_sum_ne_zero {κ : Type} (c : Counter κ) (hne : c ≠ [])
    (hpos : ∀ e ∈ c, 0 < e.2) : (counterVals c).sum ≠ 0 := by
  cases c with
  | nil => exact absurd rfl hne
  | cons e t =>
      have he : 0 < e.2 := hpos e (by simp)
      simp only [counterVals, List.map_cons, List.sum_cons]
      omega

theorem combosOf_pos (data : List Entry) : ∀ e ∈ combosOf data, 0 < e.2 := by
  rw [combosOf_eq]
  exact counterOfList_pos _

theorem elem_evenness_bounds (data : List Entry) (r : ElemAnalysis)
    (h : analyze_element_combinations data = some r) :
    0 ≤ r.evenness_percent ∧ r.evenness_percent ≤ 100 := by
  rw [analyze_element_combinations_eq] at h
  obtain rfl := Option.some.inj h
  dsimp only
  by_cases hne : combosOf data ≠ []
  · rw [if_pos hne]
    have hpos : ∀ c ∈ counterVals (combosOf data), 0 < c := by
      intro v hv
      obtain ⟨e, he, rfl⟩ := List.mem_map.mp hv
      exact combosOf_pos data e he
    have hT : (counterVals (combosOf data)).sum ≠ 0 :=
      counterVals_sum_ne_zero _ hne (combosOf_pos data)
    have hE0 : 0 ≤ shannon_entropy (combosOf data) := shannon_entropy_nonneg _
    have hEM : shannon_entropy (combosOf data) ≤
        Real.logb 2 ((combosOf data).length : ℝ) :=
      shannon_entropy_le_logb_length _ hpos hT
    by_cases hM : 0 < Real.logb 2 ((combosOf data).length : ℝ)
    · rw [if_pos hM]
      constructor
      · positivity
      · calc shannon_entropy (combosOf data) /
              Real.logb 2 ((combosOf data).length : ℝ) * 100
            ≤ 1 * 100 := by
              apply mul_le_mul_of_nonneg_right _ (by norm_num)
              exact (div_le_one hM).mpr hEM
          _ = 100 := by norm_num
    · rw [if_neg hM]
      norm_num
  · rw [if_neg hne]
    have h0 : ¬(0 < (0 : ℝ)) := by norm_num
    rw [if_neg h0]
    norm_num

/-- C3 (amended): `coverage_percent` always equals
`100 * distinct observed sorted pairs / 28`, and it lies in `[0, 100]`
whenever at most 28 distinct pairs are observed (in particular for primitives
drawn from the default 8-element alphabet); with more than 28 distinct pairs
it exceeds 100. -/
theorem c3_coverage_formula_bounds (data : List Entry) (r : ElemAnalysis)
    (h : analyze_element_combinations data = some r) :
    r.coverage_percent = (distinctPairs data : ℝ) / 28 * 100 ∧
      r.unique_combinations = distinctPairs data ∧
      (distinctPairs data ≤ 28 →
        0 ≤ r.coverage_percent ∧ r.coverage_percent ≤ 100) := by
  rw [analyze_element_combinations_eq] at h
  obtain rfl := Option.some.inj h
  dsimp only
  rw [combosOf_length]
  refine ⟨rfl, rfl, fun h28 => ⟨by positivity, ?_⟩⟩
  have hle : ((distinctPairs data : ℝ)) ≤ 28 := by exact_mod_cast h28
  calc (distinctPairs data : ℝ) / 28 * 100
      ≤ 28 / 28 * 100 := by
        apply mul_le_mul_of_nonneg_right _ (by norm_num)
        apply div_le_div_of_nonneg_right hle (by norm_num)
    _ = 100 := by norm_num

/-- Distinct single-character element tag for counterexample records. -/
def cexPrimString (i : Nat) : String := String.mk [Char.ofNat (65 + i)]

/-- A well-formed counterexample record: two equal primitives (a sorted pair),
one effect with one `damage` script node. -/
def cexEntry (i : Nat) : Entry :=
  ⟨⟨[cexPrimString i, cexPrimString i],
    [⟨[ScriptNode.mk (some "damage") none []]⟩]⟩⟩

/-- 29 records with 29 distinct element pairs (more than the 28 the analysis
assumes possible). -/
def ex29 : List Entry := (List.range 29).map cexEntry

/-- 141 records with 141 distinct element pairs. -/
def ex141 : List Entry := (List.range 141).map cexEntry

/-- One-record collection (used to instantiate hypotheses concretely). -/
def ex1 : List Entry := [cexEntry 0]

noncomputable def elemDefault : ElemAnalysis := ⟨0, 0, 0, [], 0, 0, 0, 0, 0, 0⟩

theorem combosOf_map_cexEntry (n : Nat) :
    combosOf ((List.range n).map cexEntry) =
      counterOfList
        ((List.range n).map (fun i => [cexPrimString i, cexPrimString i])) := by
  rw [combosOf_eq, List.map_map]
  have hfun : (fun e => sortPrimitives e.ability.primitives) ∘ cexEntry =
      fun i => [cexPrimString i, cexPrimString i] := by
    funext i
    simp only [Function.comp_apply, cexEntry]
    exact sortPrimitives_pair _
  rw [hfun]

set_option maxRecDepth 100000 in
theorem distinctPairs_ex29 : distinctPairs ex29 = 29 := by
  unfold distinctPairs ex29
  rw [List.map_map]
  have hfun : (fun e => sortPrimitives e.ability.primitives) ∘ cexEntry =
      fun i => [cexPrimString i, cexPrimString i] := by
    funext i
    simp only [Function.comp_apply, cexEntry]
    exact sortPrimitives_pair _
  rw [hfun]
  decide

/-- C3 (counterexample): a collection of 29 well-formed records with 29
distinct sorted element pairs makes `coverage_percent` exceed 100, refuting
"this value lies in [0, 100]" for every record collection. -/
theorem c3_counterexample :
    100 < ((analyze_element_combinations ex29).getD elemDefault).coverage_percent := by
  rw [analyze_element_combinations_eq]
  simp only [Option.getD_some]
  rw [combosOf_length, distinctPairs_ex29]
  norm_num

set_option maxRecDepth 10000 in
theorem distinctPairs_ex1 : distinctPairs ex1 = 1 := by
  unfold distinctPairs ex1
  simp only [List.map_cons, List.map_nil, cexEntry]
  rw [sortPrimitives_pair]
  decide

theorem c3_witness :
    ((analyze_element_combinations ex1).getD elemDefault).coverage_percent =
        (distinctPairs ex1 : ℝ) / 28 * 100 ∧
      0 ≤ ((analyze_element_combinations ex1).getD elemDefault).coverage_percent ∧
      ((analyze_element_combinations ex1).getD elemDefault).coverage_percent ≤ 100 := by
  have hsome : analyze_element_combinations ex1 =
      some ((analyze_element_combinations ex1).getD elemDefault) := by
    rw [analyze_element_combinations_eq]
    rfl
  have h := c3_coverage_formula_bounds ex1
    ((analyze_element_combinations ex1).getD elemDefault) hsome
  have h28 : distinctPairs ex1 ≤ 28 := by rw [distinctPairs_ex1]; norm_num
  exact ⟨h.1, (h.2.2 h28).1, (h.2.2 h28).2⟩

/-- Evaluated form of `analyze_actions`: fails exactly on the empty collection
(division `unique_sequences / self.n`). -/
theorem analyze_actions_eq (data : List Entry) :
    analyze_actions data =
      if data.length = 0 then none
      else
        some
          { action_distribution := counterOfList (data.map entrySequence).flatten
            unique_actions := (counterOfList (data.map entrySequence).flatten).length
            entropy := shannon_entropy (counterOfList (data.map entrySequence).flatten)
            unique_sequences := (data.map entrySequence).dedup.length
            sequence_entropy := shannon_entropy (counterOfList (data.map entrySequence))
            sequence_diversity_percent :=
              ((data.map entrySequence).dedup.length : ℝ) / (data.length : ℝ) * 100 } := by
  unfold analyze_actions pydiv
  by_cases h : data.length = 0 <;> simp [h]

/-- Per-record top-level script count of `analyze_complexity`
(`total_scripts`). -/
def totalScripts (e : Entry) : Nat :=
  (e.ability.effects.map (fun eff => eff.script.length)).sum

/-- Per-record maximum `on_hit` nesting depth of `analyze_complexity`
(`max_depth`). -/
def entryMaxDepth (e : Entry) : Nat :=
  e.ability.effects.foldl
    (fun m eff => eff.script.foldl (fun m s => max m (get_max_depth s 0)) m) 0

/-- Evaluated form of `analyze_complexity`: fails exactly on the empty
collection (the two average divisions). -/
theorem analyze_complexity_eq (data : List Entry) :
    analyze_complexity data =
      if data.length = 0 then none
      else
        some
          { avg_scripts_per_ability :=
              (((data.map totalScripts).sum : Nat) : ℝ) / (data.length : ℝ)
            min_scripts := (data.map totalScripts).min?.getD 0
            max_scripts := (data.map totalScripts).max?.getD 0
            avg_nesting_depth :=
              (((data.map entryMaxDepth).sum : Nat) : ℝ) / (data.length : ℝ)
            max_nesting_depth := (data.map entryMaxDepth).max?.getD 0
            complexity_entropy := shannon_entropy (counterOfList (data.map totalScripts)) } := by
  unfold analyze_complexity pydiv totalScripts entryMaxDepth
  by_cases h : data.length = 0 <;> simp [h]

theorem actions_sdp_bounds (data : List Entry) (a : ActionAnalysis)
    (ha : analyze_actions data = some a) :
    0 ≤ a.sequence_diversity_percent ∧ a.sequence_diversity_percent ≤ 100 := by
  rw [analyze_actions_eq] at ha
  by_cases h : data.length = 0
  · rw [if_pos h] at ha
    cases ha
  · rw [if_neg h] at ha
    obtain rfl := Option.some.inj ha
    dsimp only
    have hn : (0 : ℝ) < (data.length : ℝ) := by
      have := Nat.pos_of_ne_zero h
      exact_mod_cast this
    constructor
    · positivity
    · have hdle : (data.map entrySequence).dedup.length ≤ data.length := by
        calc (data.map entrySequence).dedup.length
            ≤ (data.map entrySequence).length :=
              (List.dedup_sublist _).length_le
          _ = data.length := List.length_map _ _
      have hdle' : ((data.map entrySequence).dedup.length : ℝ) ≤ (data.length : ℝ) := by
        exact_mod_cast hdle
      calc ((data.map entrySequence).dedup.length : ℝ) / (data.length : ℝ) * 100
          ≤ 1 * 100 := by
            apply mul_le_mul_of_nonneg_right _ (by norm_num)
            exact (div_le_one hn).mpr hdle'
        _ = 100 := by norm_num

theorem complexity_entropy_nonneg (data : List Entry) (c : ComplexityAnalysis)
    (hc : analyze_complexity data = some c) : 0 ≤ c.complexity_entropy := by
  rw [analyze_complexity_eq] at hc
  by_cases h : data.length = 0
  · rw [if_pos h] at hc
    cases hc
  · rw [if_neg h] at hc
    obtain rfl := Option.some.inj hc
    exact shannon_entropy_nonneg _

theorem score_eq_sum_div_five (e : ElemAnalysis) (a : ActionAnalysis)
    (s : StatusAnalysis) (c : ComplexityAnalysis) :
    calculate_overall_diversity_score e a s c =
      (e.coverage_percent + e.evenness_percent + a.sequence_diversity_percent +
          min (c.complexity_entropy / Real.logb 2 5 * 100) 100 +
          min ((s.unique_statuses : ℝ) / 10 * 100) 100) / 5 := by
  unfold calculate_overall_diversity_score
  simp only [List.sum_cons, List.sum_nil, List.length_cons, List.length_nil]
  norm_num
  ring

theorem elem_coverage_props (data : List Entry) (e : ElemAnalysis)
    (he : analyze_element_combinations data = some e) :
    e.coverage_percent = (distinctPairs data : ℝ) / 28 * 100 := by
  rw [analyze_element_combinations_eq] at he
  obtain rfl := Option.some.inj he
  dsimp only
  rw [combosOf_length]

theorem coverage_le_100_of_le28 {u : Nat} (h : u ≤ 28) :
    ((u : ℝ) / 28 * 100) ≤ 100 := by
  have hle : ((u : ℝ)) ≤ 28 := by exact_mod_cast h
  calc (u : ℝ) / 28 * 100
      ≤ 28 / 28 * 100 := by
        apply mul_le_mul_of_nonneg_right _ (by norm_num)
        apply div_le_div_of_nonneg_right hle (by norm_num)
    _ = 100 := by norm_num

/-- C4 (amended): the overall score is the arithmetic mean of the five
sub-scores in the stated order; it is always nonnegative, and it is at most
100 whenever at most 28 distinct element pairs are observed; with more than
28 distinct pairs the coverage term, and hence the score, can exceed 100. -/
theorem c4_score_mean_bounds (data : List Entry) (e : ElemAnalysis)
    (a : ActionAnalysis) (c : ComplexityAnalysis)
    (he : analyze_element_combinations data = some e)
    (ha : analyze_actions data = some a)
    (hc : analyze_complexity data = some c) :
    calculate_overall_diversity_score e a (analyze_status_effects data) c =
      (e.coverage_percent + e.evenness_percent + a.sequence_diversity_percent +
          min (c.complexity_entropy / Real.logb 2 5 * 100) 100 +
          min (((analyze_status_effects data).unique_statuses : ℝ) / 10 * 100)
            100) / 5 ∧
      0 ≤ calculate_overall_diversity_score e a (analyze_status_effects data) c ∧
      (distinctPairs data ≤ 28 →
        calculate_overall_diversity_score e a (analyze_status_effects data) c
          ≤ 100) := by
  have hcov_eq := elem_coverage_props data e he
  have hcov0 : 0 ≤ e.coverage_percent := by rw [hcov_eq]; positivity
  have hev := elem_evenness_bounds data e he
  have hsdp := actions_sdp_bounds data a ha
  have hcE := complexity_entropy_nonneg data c hc
  have hL : (0 : ℝ) < Real.logb 2 5 := Real.logb_pos (by norm_num) (by norm_num)
  have hcx0 : 0 ≤ min (c.complexity_entropy / Real.logb 2 5 * 100) 100 :=
    le_min (mul_nonneg (div_nonneg hcE hL.le) (by norm_num)) (by norm_num)
  have hcx1 : min (c.complexity_entropy / Real.logb 2 5 * 100) 100 ≤ 100 :=
    min_le_right _ _
  have hst0 : 0 ≤
      min (((analyze_status_effects data).unique_statuses : ℝ) / 10 * 100) 100 :=
    le_min (by positivity) (by norm_num)
  have hst1 :
      min (((analyze_status_effects data).unique_statuses : ℝ) / 10 * 100) 100
        ≤ 100 := min_le_right _ _
  refine ⟨score_eq_sum_div_five _ _ _ _, ?_, fun h28 => ?_⟩
  · rw [score_eq_sum_div_five]
    apply div_nonneg _ (by norm_num)
    linarith [hev.1, hsdp.1]
  · rw [score_eq_sum_div_five]
    have hcov1 : e.coverage_percent ≤ 100 := by
      rw [hcov_eq]
      exact coverage_le_100_of_le28 h28
    rw [div_le_iff (show (0 : ℝ) < 5 by norm_num)]
    linarith [hev.2, hsdp.2]

noncomputable def actionsDefault : ActionAnalysis := ⟨[], 0, 0, 0, 0, 0⟩

noncomputable def complexityDefault : ComplexityAnalysis := ⟨0, 0, 0, 0, 0, 0⟩

set_option maxRecDepth 1000000 in
theorem distinctPairs_ex141 : distinctPairs ex141 = 141 := by
  unfold distinctPairs ex141
  rw [List.map_map]
  have hfun : (fun e => sortPrimitives e.ability.primitives) ∘ cexEntry =
      fun i => [cexPrimString i, cexPrimString i] := by
    funext i
    simp only [Function.comp_apply, cexEntry]
    exact sortPrimitives_pair _
  rw [hfun]
  decide

/-- C4 (counterexample): 141 well-formed records with 141 distinct element
pairs drive the overall diversity score above 100, refuting "for every input
collection this result is a scalar in [0, 100]". -/
theorem c4_counterexample :
    100 < calculate_overall_diversity_score
        ((analyze_element_combinations ex141).getD elemDefault)
        ((analyze_actions ex141).getD actionsDefault)
        (analyze_status_effects ex141)
        ((analyze_complexity ex141).getD complexityDefault) := by
  rw [score_eq_sum_div_five]
  have hsome : analyze_element_combinations ex141 =
      some ((analyze_element_combinations ex141).getD elemDefault) := by
    rw [analyze_element_combinations_eq]
    rfl
  have hcov : ((analyze_element_combinations ex141).getD
      elemDefault).coverage_percent = ((141 : Nat) : ℝ) / 28 * 100 := by
    rw [elem_coverage_props ex141 _ hsome, distinctPairs_ex141]
  have hev : 0 ≤ ((analyze_element_combinations ex141).getD
      elemDefault).evenness_percent :=
    (elem_evenness_bounds ex141 _ hsome).1
  have hsdp : 0 ≤ ((analyze_actions ex141).getD
      actionsDefault).sequence_diversity_percent := by
    rcases hA : analyze_actions ex141 with _ | a
    · simp [actionsDefault]
    · simp only [Option.getD_some]
      exact (actions_sdp_bounds ex141 a hA).1
  have hL : (0 : ℝ) < Real.logb 2 5 := Real.logb_pos (by norm_num) (by norm_num)
  have hcx : 0 ≤ min (((analyze_complexity ex141).getD
      complexityDefault).complexity_entropy / Real.logb 2 5 * 100) 100 := by
    rcases hC : analyze_complexity ex141 with _ | c
    · apply le_min _ (by norm_num)
      simp [complexityDefault]
    · simp only [Option.getD_some]
      have hE := complexity_entropy_nonneg ex141 c hC
      exact le_min (mul_nonneg (div_nonneg hE hL.le) (by norm_num)) (by norm_num)
  have hst : 0 ≤
      min (((analyze_status_effects ex141).unique_statuses : ℝ) / 10 * 100) 100 :=
    le_min
      (mul_nonneg (div_nonneg (Nat.cast_nonneg _) (by norm_num)) (by norm_num))
      (by norm_num)
  rw [hcov]
  rw [lt_div_iff (show (0 : ℝ) < 5 by norm_num)]
  have hbig : (500 : ℝ) < ((141 : Nat) : ℝ) / 28 * 100 := by norm_num
  linarith

theorem c4_witness :
    0 ≤ calculate_overall_diversity_score
        ((analyze_element_combinations ex1).getD elemDefault)
        ((analyze_actions ex1).getD actionsDefault)
        (analyze_status_effects ex1)
        ((analyze_complexity ex1).getD complexityDefault) ∧
      calculate_overall_diversity_score
        ((analyze_element_combinations ex1).getD elemDefault)
        ((analyze_actions ex1).getD actionsDefault)
        (analyze_status_effects ex1)
        ((analyze_complexity ex1).getD complexityDefault) ≤ 100 := by
  have hsome1 : analyze_element_combinations ex1 =
      some ((analyze_element_combinations ex1).getD elemDefault) := by
    rw [analyze_element_combinations_eq]
    rfl
  have hsome2 : analyze_actions ex1 =
      some ((analyze_actions ex1).getD actionsDefault) := by
    rw [analyze_actions_eq]
    simp [ex1]
  have hsome3 : analyze_complexity ex1 =
      some ((analyze_complexity ex1).getD complexityDefault) := by
    rw [analyze_complexity_eq]
    simp [ex1]
  exact ⟨(c4_score_mean_bounds ex1 _ _ _ hsome1 hsome2 hsome3).2.1,
    (c4_score_mean_bounds ex1 _ _ _ hsome1 hsome2 hsome3).2.2
      (by rw [distinctPairs_ex1]; norm_num)⟩

mutual
/-- Specification-side full-tree search for a `spawn_melee` node: the claim's
"anywhere in the dataset, including nodes nested inside on_hit chains". -/
def hasSpawnMeleeNode : ScriptNode → Bool
  | .mk action _ onHit =>
      decide (action = some "spawn_melee") || hasSpawnMeleeList onHit
/-- Specification-side full-tree search over a list of script nodes. -/
def hasSpawnMeleeList : List ScriptNode → Bool
  | [] => false
  | s :: rest => hasSpawnMeleeNode s || hasSpawnMeleeList rest
end

/-- Specification-side full-tree search over a whole record collection. -/
def hasSpawnMeleeAnywhere (data : List Entry) : Bool :=
  data.any (fun e => e.ability.effects.any (fun eff => hasSpawnMeleeList eff.script))

/-- The top-level script nodes of a collection, in iteration order — the nodes
`analyze_melee_attacks` actually inspects. -/
def topLevelNodes (data : List Entry) : List ScriptNode :=
  (data.map (fun e => (e.ability.effects.map (fun eff => eff.script)).flatten)).flatten

/-- Python `args.get('shape', 'unknown')` of a script node. -/
def meleeShape (s : ScriptNode) : String :=
  (s.args.getD emptyArgs).shape.getD "unknown"

/-- Python `args.get('movement', 'stationary')` of a script node. -/
def meleeMovement (s : ScriptNode) : String :=
  (s.args.getD emptyArgs).movement.getD "stationary"

/-- The top-level `spawn_melee` nodes of a collection. -/
def spawnMeleeNodes (data : List Entry) : List ScriptNode :=
  (topLevelNodes data).filter (fun s => s.action = some "spawn_melee")

theorem foldl_flatten {α β : Type} (f : β → α → β) (ll : List (List α)) :
    ∀ init : β,
      ll.foldl (fun acc sub => sub.foldl f acc) init = ll.flatten.foldl f init := by
  induction ll with
  | nil => intro init; rfl
  | cons sub t ih =>
      intro init
      rw [List.flatten_cons, List.foldl_append, List.foldl_cons]
      exact ih _

theorem melee_tallies_eq (data : List Entry)
    (init : Counter String × Counter String × Counter (String × String)) :
    data.foldl
        (fun acc e =>
          e.ability.effects.foldl (fun acc eff => eff.script.foldl meleeStep acc) acc)
        init =
      (topLevelNodes data).foldl meleeStep init := by
  unfold topLevelNodes
  rw [← foldl_flatten, List.foldl_map]
  congr 1
  funext acc e
  rw [← foldl_flatten, List.foldl_map]

theorem counterIncr_ne_nil {κ : Type} [DecidableEq κ] (c : Counter κ) (k : κ) :
    counterIncr c k ≠ [] := by
  unfold counterIncr
  by_cases h : c.any (fun e => e.1 = k)
  · rw [if_pos h]
    intro hmap
    rw [List.map_eq_nil_iff] at hmap
    subst hmap
    simp at h
  · rw [if_neg h]
    simp

theorem melee_foldl_shapes_empty (l : List ScriptNode) :
    ∀ acc : Counter String × Counter String × Counter (String × String),
      ((l.foldl meleeStep acc).1 = []) ↔
        (acc.1 = [] ∧ ∀ s ∈ l, ¬(s.action = some "spawn_melee")) := by
  induction l with
  | nil => intro acc; simp
  | cons s t ih =>
      intro acc
      rw [List.foldl_cons, ih]
      by_cases hs : s.action = some "spawn_melee"
      · rw [show meleeStep acc s =
            (counterIncr acc.1 (meleeShape s), counterIncr acc.2.1 (meleeMovement s),
              counterIncr acc.2.2 (meleeShape s, meleeMovement s)) from by
          unfold meleeStep meleeShape meleeMovement
          rw [if_pos hs]]
        constructor
        · rintro ⟨h1, _⟩
          exact absurd h1 (counterIncr_ne_nil _ _)
        · rintro ⟨_, hall⟩
          exact absurd hs (hall s (by simp))
      · rw [show meleeStep acc s = acc from by unfold meleeStep; rw [if_neg hs]]
        constructor
        · rintro ⟨h1, hall⟩
          refine ⟨h1, fun x hx => ?_⟩
          rcases List.mem_cons.mp hx with rfl | hx
          · exact hs
          · exact hall x hx
        · rintro ⟨h1, hall⟩
          exact ⟨h1, fun x hx => hall x (List.mem_cons_of_mem _ hx)⟩

theorem melee_foldl_decomp (l : List ScriptNode) :
    ∀ (a b : Counter String) (c : Counter (String × String)),
      l.foldl meleeStep (a, b, c) =
        (((l.filter (fun s => s.action = some "spawn_melee")).map meleeShape).foldl
            counterIncr a,
          ((l.filter (fun s => s.action = some "spawn_melee")).map
              meleeMovement).foldl counterIncr b,
          ((l.filter (fun s => s.action = some "spawn_melee")).map
              (fun s => (meleeShape s, meleeMovement s))).foldl counterIncr c) := by
  induction l with
  | nil => intro a b c; simp
  | cons s t ih =>
      intro a b c
      rw [List.foldl_cons]
      by_cases hs : s.action = some "spawn_melee"
      · rw [show meleeStep (a, b, c) s =
            (counterIncr a (meleeShape s), counterIncr b (meleeMovement s),
              counterIncr c (meleeShape s, meleeMovement s)) from by
          unfold meleeStep meleeShape meleeMovement
          rw [if_pos hs]]
        rw [ih]
        simp [List.filter_cons, hs]
      · rw [show meleeStep (a, b, c) s = (a, b, c) from by
          unfold meleeStep
          rw [if_neg hs]]
        rw [ih]
        simp [List.filter_cons, hs]

theorem option_eq_some_getD {α : Type} {o : Option α} (h : o.isSome = true)
    (d : α) : o = some (o.getD d) := by
  cases o with
  | none => simp at h
  | some a => rfl

theorem counter_foldl_ne_nil {κ : Type} [DecidableEq κ] (l : List κ) :
    ∀ c : Counter κ, c ≠ [] → l.foldl counterIncr c ≠ [] := by
  induction l with
  | nil => intro c hc; exact hc
  | cons k t ih =>
      intro c _
      rw [List.foldl_cons]
      exact ih _ (counterIncr_ne_nil _ _)

theorem counterOfList_eq_nil_iff {κ : Type} [DecidableEq κ] (l : List κ) :
    counterOfList l = [] ↔ l = [] := by
  cases l with
  | nil => simp [counterOfList]
  | cons k t =>
      constructor
      · intro h
        exact absurd h (counter_foldl_ne_nil t _ (counterIncr_ne_nil _ _))
      · intro h
        cases h

/-- C7 (amended): `analyze_melee_attacks` returns `None` exactly when no
TOP-LEVEL script node has action `spawn_melee` — `on_hit` descendants are not
inspected; otherwise it returns the tallies of `shape` (default `unknown`),
`movement` (default `stationary`) and their paired co-occurrence over those
top-level `spawn_melee` nodes. -/
theorem c7_melee_none_iff_toplevel (data : List Entry) :
    (analyze_melee_attacks data = none ↔
      ∀ s ∈ topLevelNodes data, ¬(s.action = some "spawn_melee")) ∧
      ∀ r, analyze_melee_attacks data = some r →
        r.shapes = counterOfList ((spawnMeleeNodes data).map meleeShape) ∧
          r.movements = counterOfList ((spawnMeleeNodes data).map meleeMovement) ∧
          r.shape_movement_combos =
            counterOfList ((spawnMeleeNodes data).map
              (fun s => (meleeShape s, meleeMovement s))) := by
  have heq : analyze_melee_attacks data =
      if ((topLevelNodes data).foldl meleeStep ([], [], [])).1 = [] then none
      else
        some
          { shapes := ((topLevelNodes data).foldl meleeStep ([], [], [])).1
            movements := ((topLevelNodes data).foldl meleeStep ([], [], [])).2.1
            shape_movement_combos :=
              ((topLevelNodes data).foldl meleeStep ([], [], [])).2.2
            shape_entropy :=
              shannon_entropy ((topLevelNodes data).foldl meleeStep ([], [], [])).1
            movement_entropy :=
              shannon_entropy
                ((topLevelNodes data).foldl meleeStep ([], [], [])).2.1 } := by
    unfold analyze_melee_attacks
    rw [melee_tallies_eq]
  rw [heq, melee_foldl_decomp]
  dsimp only
  by_cases hc : (((topLevelNodes data).filter
      (fun s => s.action = some "spawn_melee")).map meleeShape).foldl counterIncr
        ([] : Counter String) = []
  · rw [if_pos hc]
    have hLnil : (topLevelNodes data).filter
        (fun s => s.action = some "spawn_melee") = [] :=
      List.map_eq_nil_iff.mp ((counterOfList_eq_nil_iff _).mp hc)
    constructor
    · simp only [true_iff]
      intro s hs
      have := List.filter_eq_nil_iff.mp hLnil s hs
      simpa using this
    · intro r hr
      cases hr
  · rw [if_neg hc]
    constructor
    · constructor
      · intro h
        cases h
      · intro hall
        exfalso
        apply hc
        have hLnil : (topLevelNodes data).filter
            (fun s => s.action = some "spawn_melee") = [] :=
          List.filter_eq_nil_iff.mpr (fun a ha => by simpa using hall a ha)
        rw [hLnil]
        rfl
    · intro r hr
      obtain rfl := Option.some.inj hr
      exact ⟨rfl, rfl, rfl⟩

/-- A record whose only `spawn_melee` node is nested inside an `on_hit`
chain: the melee analysis ignores it. -/
def nestedMeleeEntry : Entry :=
  ⟨⟨["fire", "fire"],
    [⟨[ScriptNode.mk (some "damage") none
        [ScriptNode.mk (some "spawn_melee") none []]]⟩]⟩⟩

/-- C7 (counterexample): a dataset containing a `spawn_melee` node — nested
inside `on_hit` — for which `analyze_melee_attacks` nevertheless returns
`None`, refuting "returns None exactly when no script node with action ==
'spawn_melee' exists anywhere in the dataset, including nodes nested inside
on_hit chains". -/
theorem c7_counterexample :
    analyze_melee_attacks [nestedMeleeEntry] = none ∧
      hasSpawnMeleeAnywhere [nestedMeleeEntry] = true := by
  constructor
  · rfl
  · simp [hasSpawnMeleeAnywhere, nestedMeleeEntry, hasSpawnMeleeList,
      hasSpawnMeleeNode]

noncomputable def meleeDefault : MeleeAnalysis := ⟨[], [], [], 0, 0⟩

/-- A record with one top-level `spawn_melee` node. -/
def topMeleeEntry : Entry :=
  ⟨⟨["fire", "fire"], [⟨[ScriptNode.mk (some "spawn_melee") none []]⟩]⟩⟩

theorem c7_witness :
    ((analyze_melee_attacks [topMeleeEntry]).getD meleeDefault).shapes =
        counterOfList ((spawnMeleeNodes [topMeleeEntry]).map meleeShape) ∧
      ((analyze_melee_attacks [topMeleeEntry]).getD meleeDefault).movements =
        counterOfList ((spawnMeleeNodes [topMeleeEntry]).map meleeMovement) ∧
      ((analyze_melee_attacks [topMeleeEntry]).getD
          meleeDefault).shape_movement_combos =
        counterOfList ((spawnMeleeNodes [topMeleeEntry]).map
          (fun s => (meleeShape s, meleeMovement s))) :=
  (c7_melee_none_iff_toplevel [topMeleeEntry]).2 _
    (option_eq_some_getD (by rfl) meleeDefault)

/-- C10: with at least one record, every division in `analyze_actions`,
`analyze_complexity` and `analyze_element_combinations` has a nonzero divisor
(the embedded analyses succeed); on the empty collection `analyze_actions`
and `analyze_complexity` hit a division by zero (`none` embeds
`ZeroDivisionError`), while the element analysis, whose divisions are by the
constant 28 or guarded, always succeeds. -/
theorem c10_divisions (data : List Entry) :
    (data ≠ [] →
      (analyze_actions data).isSome = true ∧
        (analyze_complexity data).isSome = true) ∧
      (analyze_element_combinations data).isSome = true ∧
      analyze_actions [] = none ∧ analyze_complexity [] = none := by
  refine ⟨fun hne => ?_, ?_, ?_, ?_⟩
  · have h : ¬(data.length = 0) := by
      intro h0
      exact hne (List.length_eq_zero.mp h0)
    rw [analyze_actions_eq, analyze_complexity_eq, if_neg h, if_neg h]
    exact ⟨rfl, rfl⟩
  · rw [analyze_element_combinations_eq]
    rfl
  · rw [analyze_actions_eq]
    rfl
  · rw [analyze_complexity_eq]
    rfl

theorem c10_witness :
    (analyze_actions ex1).isSome = true ∧
      (analyze_complexity ex1).isSome = true :=
  (c10_divisions ex1).1 (by simp [ex1])

theorem ebind_ok {ε α β : Type} (a : α) (f : α → Except ε β) :
    (Except.ok a : Except ε α) >>= f = f a := rfl

theorem ebind_err {ε α β : Type} (e : ε) (f : α → Except ε β) :
    (Except.error e : Except ε α) >>= f = Except.error e := rfl

theorem epure {ε α : Type} (a : α) : (pure a : Except ε α) = Except.ok a := rfl


theorem lookupKey_none_of_hasKey_false {o : Obj} {k : String}
    (h : hasKey o k = false) : lookupKey o k = none := by
  unfold lookupKey
  have hf : o.find? (fun kv => kv.1 = k) = none := by
    rw [List.find?_eq_none]
    intro kv hkv
    unfold hasKey at h
    rw [List.any_eq_false] at h
    exact h kv hkv
  rw [hf]
  rfl

theorem lookupKey_some_of_hasKey {o : Obj} {k : String}
    (h : hasKey o k = true) : ∃ v, lookupKey o k = some v := by
  unfold hasKey at h
  rcases hf : o.find? (fun kv => kv.1 = k) with _ | kv
  · rw [List.find?_eq_none] at hf
    rw [List.any_eq_true] at h
    obtain ⟨kv, hkv, he⟩ := h
    exact absurd he (hf kv hkv)
  · exact ⟨kv.2, by unfold lookupKey; rw [hf]; rfl⟩

theorem pySubscript_obj_of_lookup {kvs : Obj} {k : String} {v : Json}
    (h : lookupKey kvs k = some v) : pySubscript (.obj kvs) k = .ok v := by
  simp only [pySubscript, h]

theorem primitivesChk_spec (ab : Json) :
    (primitivesChk ab = .ok true ↔ primitivesOkSpec ab = true) ∧
      (primitivesChk ab = .ok false → primitivesOkSpec ab = false) ∧
      (primitivesChk ab = .ok true → ∃ kvs, ab = .obj kvs) := by
  cases ab with
  | null =>
      have hch : primitivesChk Json.null = .error PyErr.typeError := rfl
      rw [hch]
      exact ⟨by simp [primitivesOkSpec], by simp, by simp⟩
  | bool b =>
      have hch : primitivesChk (Json.bool b) = .error PyErr.typeError := rfl
      rw [hch]
      exact ⟨by simp [primitivesOkSpec], by simp, by simp⟩
  | num q =>
      have hch : primitivesChk (Json.num q) = .error PyErr.typeError := rfl
      rw [hch]
      exact ⟨by simp [primitivesOkSpec], by simp, by simp⟩
  | str s =>
      by_cases hb : decide (("primitives" : String).toList <:+: s.toList) = true
      · have hch : primitivesChk (Json.str s) = .error PyErr.typeError := by
          simp only [primitivesChk, pyContains, ebind_ok]
          rw [hb]
          simp [pySubscript, ebind_err]
        rw [hch]
        exact ⟨by simp [primitivesOkSpec], by simp, by simp⟩
      · rw [Bool.not_eq_true] at hb
        have hch : primitivesChk (Json.str s) = .ok false := by
          simp only [primitivesChk, pyContains, ebind_ok]
          rw [hb]
          simp [epure]
        rw [hch]
        exact ⟨by simp [primitivesOkSpec], by simp [primitivesOkSpec], by simp⟩
  | arr xs =>
      by_cases hb : xs.any
          (fun j => match j with | .str s => s = "primitives" | _ => false) = true
      · have hch : primitivesChk (Json.arr xs) = .error PyErr.typeError := by
          simp [primitivesChk, pyContains, hb, ebind_ok, pySubscript, ebind_err]
        rw [hch]
        exact ⟨by simp [primitivesOkSpec], by simp, by simp⟩
      · rw [Bool.not_eq_true] at hb
        have hch : primitivesChk (Json.arr xs) = .ok false := by
          simp [primitivesChk, pyContains, hb, ebind_ok, epure]
        rw [hch]
        exact ⟨by simp [primitivesOkSpec], by simp [primitivesOkSpec], by simp⟩
  | obj kvs =>
      by_cases hb : kvs.any (fun kv => kv.1 = "primitives") = true
      · obtain ⟨v, hv⟩ := lookupKey_some_of_hasKey (o := kvs) (k := "primitives") hb
        have hsub := pySubscript_obj_of_lookup hv
        rcases hL : pyLen v with e | n
        · have hch : primitivesChk (Json.obj kvs) = .error e := by
            simp [primitivesChk, pyContains, hb, ebind_ok, hsub, hL, ebind_err]
          rw [hch]
          exact ⟨by simp [primitivesOkSpec, hv, hL], by simp, by simp⟩
        · have hch : primitivesChk (Json.obj kvs) = .ok (decide (n = 2)) := by
            simp [primitivesChk, pyContains, hb, ebind_ok, hsub, hL, epure]
          rw [hch]
          refine ⟨?_, ?_, ?_⟩
          · simp [primitivesOkSpec, hv, hL]
          · intro h
            simp at h
            simp [primitivesOkSpec, hv, hL, h]
          · intro h
            exact ⟨kvs, rfl⟩
      · rw [Bool.not_eq_true] at hb
        have hnone : lookupKey kvs "primitives" = none :=
          lookupKey_none_of_hasKey_false (o := kvs) hb
        have hch : primitivesChk (Json.obj kvs) = .ok false := by
          simp [primitivesChk, pyContains, hb, ebind_ok, epure]
        rw [hch]
        exact ⟨by simp [primitivesOkSpec, hnone],
          by simp [primitivesOkSpec, hnone], by simp⟩

theorem effectsChk_spec (ab : Json) :
    (effectsChk ab = .ok true ↔ effectsOkSpec ab = true) ∧
      (effectsChk ab = .ok false → effectsOkSpec ab = false) := by
  cases ab with
  | null =>
      have hch : effectsChk Json.null = .error PyErr.typeError := rfl
      rw [hch]
      exact ⟨by simp [effectsOkSpec], by simp⟩
  | bool b =>
      have hch : effectsChk (Json.bool b) = .error PyErr.typeError := rfl
      rw [hch]
      exact ⟨by simp [effectsOkSpec], by simp⟩
  | num q =>
      have hch : effectsChk (Json.num q) = .error PyErr.typeError := rfl
      rw [hch]
      exact ⟨by simp [effectsOkSpec], by simp⟩
  | str s =>
      by_cases hb : decide (("effects" : String).toList <:+: s.toList) = true
      · have hch : effectsChk (Json.str s) = .error PyErr.typeError := by
          simp only [effectsChk, pyContains, ebind_ok]
          rw [hb]
          simp [pySubscript, ebind_err]
        rw [hch]
        exact ⟨by simp [effectsOkSpec], by simp⟩
      · rw [Bool.not_eq_true] at hb
        have hch : effectsChk (Json.str s) = .ok false := by
          simp only [effectsChk, pyContains, ebind_ok]
          rw [hb]
          simp [epure]
        rw [hch]
        exact ⟨by simp [effectsOkSpec], by simp [effectsOkSpec]⟩
  | arr xs =>
      by_cases hb : xs.any
          (fun j => match j with | .str s => s = "effects" | _ => false) = true
      · have hch : effectsChk (Json.arr xs) = .error PyErr.typeError := by
          simp [effectsChk, pyContains, hb, ebind_ok, pySubscript, ebind_err]
        rw [hch]
        exact ⟨by simp [effectsOkSpec], by simp⟩
      · rw [Bool.not_eq_true] at hb
        have hch : effectsChk (Json.arr xs) = .ok false := by
          simp [effectsChk, pyContains, hb, ebind_ok, epure]
        rw [hch]
        exact ⟨by simp [effectsOkSpec], by simp [effectsOkSpec]⟩
  | obj kvs =>
      by_cases hb : kvs.any (fun kv => kv.1 = "effects") = true
      · obtain ⟨v, hv⟩ := lookupKey_some_of_hasKey (o := kvs) (k := "effects") hb
        have hsub := pySubscript_obj_of_lookup hv
        have hch : effectsChk (Json.obj kvs) = .ok (pyTruthy v) := by
          simp [effectsChk, pyContains, hb, ebind_ok, hsub, epure]
        rw [hch]
        refine ⟨?_, ?_⟩
        · simp [effectsOkSpec, hv]
        · intro h
          simp at h
          simp [effectsOkSpec, hv, h]
      · rw [Bool.not_eq_true] at hb
        have hnone : lookupKey kvs "effects" = none :=
          lookupKey_none_of_hasKey_false (o := kvs) hb
        have hch : effectsChk (Json.obj kvs) = .ok false := by
          simp [effectsChk, pyContains, hb, ebind_ok, epure]
        rw [hch]
        exact ⟨by simp [effectsOkSpec, hnone], by simp [effectsOkSpec, hnone]⟩

theorem validate_ability_master (o : Obj) :
    (validate_ability o = .ok (true, "OK") ↔
      (hasKey o "name" = true ∧ hasKey o "description" = true ∧
        hasKey o "color" = true ∧ hasKey o "ability" = true ∧
        primitivesOkSpec (abilityValOf o) = true ∧
        effectsOkSpec (abilityValOf o) = true ∧
        cooldownOkSpec (abilityValOf o) = true)) ∧
      (∀ r, validate_ability o = .ok r →
        (r = (true, "OK") ∨ (r.1 = false ∧ firstViolation o = some r.2))) := by
  by_cases hn : hasKey o "name" = true
  case neg =>
    rw [Bool.not_eq_true] at hn
    have hch : validate_ability o = .ok (false, "Missing field: " ++ "name") := by
      unfold validate_ability
      rw [List.find?_cons_of_pos _ (by rw [hn]; rfl)]
    rw [hch]
    constructor
    · constructor
      · intro h
        simp at h
      · rintro ⟨h1, -⟩
        rw [hn] at h1
        cases h1
    · intro r hr
      simp only [Except.ok.injEq] at hr
      subst hr
      refine Or.inr ⟨rfl, ?_⟩
      unfold firstViolation
      rw [if_pos (by simp [hn])]
      rfl
  case pos =>
  by_cases hd : hasKey o "description" = true
  case neg =>
    rw [Bool.not_eq_true] at hd
    have hch : validate_ability o =
        .ok (false, "Missing field: " ++ "description") := by
      unfold validate_ability
      rw [List.find?_cons_of_neg _ (by rw [hn]; simp),
        List.find?_cons_of_pos _ (by rw [hd]; rfl)]
    rw [hch]
    constructor
    · constructor
      · intro h
        simp at h
      · rintro ⟨-, h1, -⟩
        rw [hd] at h1
        cases h1
    · intro r hr
      simp only [Except.ok.injEq] at hr
      subst hr
      refine Or.inr ⟨rfl, ?_⟩
      unfold firstViolation
      rw [if_neg (by simp [hn]), if_pos (by simp [hd])]
      rfl
  case pos =>
  by_cases hc : hasKey o "color" = true
  case neg =>
    rw [Bool.not_eq_true] at hc
    have hch : validate_ability o = .ok (false, "Missing field: " ++ "color") := by
      unfold validate_ability
      rw [List.find?_cons_of_neg _ (by rw [hn]; simp),
        List.find?_cons_of_neg _ (by rw [hd]; simp),
        List.find?_cons_of_pos _ (by rw [hc]; rfl)]
    rw [hch]
    constructor
    · constructor
      · intro h
        simp at h
      · rintro ⟨-, -, h1, -⟩
        rw [hc] at h1
        cases h1
    · intro r hr
      simp only [Except.ok.injEq] at hr
      subst hr
      refine Or.inr ⟨rfl, ?_⟩
      unfold firstViolation
      rw [if_neg (by simp [hn]), if_neg (by simp [hd]), if_pos (by simp [hc])]
      rfl
  case pos =>
  by_cases hab : hasKey o "ability" = true
  case neg =>
    rw [Bool.not_eq_true] at hab
    have hch : validate_ability o =
        .ok (false, "Missing field: " ++ "ability") := by
      unfold validate_ability
      rw [List.find?_cons_of_neg _ (by rw [hn]; simp),
        List.find?_cons_of_neg _ (by rw [hd]; simp),
        List.find?_cons_of_neg _ (by rw [hc]; simp),
        List.find?_cons_of_pos _ (by rw [hab]; rfl)]
    rw [hch]
    constructor
    · constructor
      · intro h
        simp at h
      · rintro ⟨-, -, -, h1, -⟩
        rw [hab] at h1
        cases h1
    · intro r hr
      simp only [Except.ok.injEq] at hr
      subst hr
      refine Or.inr ⟨rfl, ?_⟩
      unfold firstViolation
      rw [if_neg (by simp [hn]), if_neg (by simp [hd]), if_neg (by simp [hc]),
        if_pos (by simp [hab])]
      rfl
  case pos =>
  have hun : validate_ability o = (do
      let pc ← primitivesChk (abilityValOf o)
      if !pc then pure (false, "Invalid primitives (must have exactly 2)")
      else do
        let ec ← effectsChk (abilityValOf o)
        if !ec then pure (false, "Missing effects")
        else do
          let cc ← pyContains "cooldown" (abilityValOf o)
          if !cc then pure (false, "Missing cooldown")
          else pure (true, "OK")) := by
    unfold validate_ability
    rw [List.find?_cons_of_neg _ (by rw [hn]; simp),
      List.find?_cons_of_neg _ (by rw [hd]; simp),
      List.find?_cons_of_neg _ (by rw [hc]; simp),
      List.find?_cons_of_neg _ (by rw [hab]; simp)]
    rfl
  rcases hpc : primitivesChk (abilityValOf o) with e | pc
  · have hch : validate_ability o = .error e := by
      rw [hun, hpc, ebind_err]
    rw [hch]
    constructor
    · constructor
      · intro h
        simp at h
      · rintro ⟨-, -, -, -, hp, -, -⟩
        have := (primitivesChk_spec (abilityValOf o)).1.mpr hp
        rw [hpc] at this
        cases this
    · intro r hr
      simp at hr
  · cases pc with
    | false =>
        have hch : validate_ability o =
            .ok (false, "Invalid primitives (must have exactly 2)") := by
          rw [hun, hpc, ebind_ok]
          rfl
        have hps : primitivesOkSpec (abilityValOf o) = false :=
          (primitivesChk_spec (abilityValOf o)).2.1 hpc
        rw [hch]
        constructor
        · constructor
          · intro h
            simp at h
          · rintro ⟨-, -, -, -, hp, -, -⟩
            rw [hps] at hp
            cases hp
        · intro r hr
          simp only [Except.ok.injEq] at hr
          subst hr
          refine Or.inr ⟨rfl, ?_⟩
          unfold firstViolation
          rw [if_neg (by simp [hn]), if_neg (by simp [hd]), if_neg (by simp [hc]),
            if_neg (by simp [hab]), if_pos (by simp [hps])]
    | true =>
        have hps : primitivesOkSpec (abilityValOf o) = true :=
          (primitivesChk_spec (abilityValOf o)).1.mp hpc
        obtain ⟨kvs, hkvs⟩ := (primitivesChk_spec (abilityValOf o)).2.2 hpc
        rcases hec : effectsChk (abilityValOf o) with e | ec
        · have hch : validate_ability o = .error e := by
            rw [hun, hpc, ebind_ok]
            simp only [Bool.not_true, Bool.false_eq_true, if_false]
            rw [hec, ebind_err]
          rw [hch]
          constructor
          · constructor
            · intro h
              simp at h
            · rintro ⟨-, -, -, -, -, he, -⟩
              have := (effectsChk_spec (abilityValOf o)).1.mpr he
              rw [hec] at this
              cases this
          · intro r hr
            simp at hr
        · cases ec with
          | false =>
              have hch : validate_ability o = .ok (false, "Missing effects") := by
                rw [hun, hpc, ebind_ok]
                simp only [Bool.not_true, Bool.false_eq_true, if_false]
                rw [hec, ebind_ok]
                rfl
              have hes : effectsOkSpec (abilityValOf o) = false :=
                (effectsChk_spec (abilityValOf o)).2 hec
              rw [hch]
              constructor
              · constructor
                · intro h
                  simp at h
                · rintro ⟨-, -, -, -, -, he, -⟩
                  rw [hes] at he
                  cases he
              · intro r hr
                simp only [Except.ok.injEq] at hr
                subst hr
                refine Or.inr ⟨rfl, ?_⟩
                unfold firstViolation
                rw [if_neg (by simp [hn]), if_neg (by simp [hd]),
                  if_neg (by simp [hc]), if_neg (by simp [hab]),
                  if_neg (by simp [hps]), if_pos (by simp [hes])]
          | true =>
              have hes : effectsOkSpec (abilityValOf o) = true :=
                (effectsChk_spec (abilityValOf o)).1.mp hec
              have hcc : pyContains "cooldown" (abilityValOf o) =
                  .ok (hasKey kvs "cooldown") := by
                rw [hkvs]
                rfl
              cases hcd : hasKey kvs "cooldown" with
              | false =>
                  have hch : validate_ability o =
                      .ok (false, "Missing cooldown") := by
                    rw [hun, hpc, ebind_ok]
                    simp only [Bool.not_true, Bool.false_eq_true, if_false]
                    rw [hec, ebind_ok]
                    simp only [Bool.not_true, Bool.false_eq_true, if_false]
                    rw [hcc, hcd, ebind_ok]
                    rfl
                  have hcs : cooldownOkSpec (abilityValOf o) = false := by
                    rw [hkvs]
                    simp [cooldownOkSpec, hcd]
                  rw [hch]
                  constructor
                  · constructor
                    · intro h
                      simp at h
                    · rintro ⟨-, -, -, -, -, -, hco⟩
                      rw [hcs] at hco
                      cases hco
                  · intro r hr
                    simp only [Except.ok.injEq] at hr
                    subst hr
                    refine Or.inr ⟨rfl, ?_⟩
                    unfold firstViolation
                    rw [if_neg (by simp [hn]), if_neg (by simp [hd]),
                      if_neg (by simp [hc]), if_neg (by simp [hab]),
                      if_neg (by simp [hps]), if_neg (by simp [hes]),
                      if_pos (by simp [hcs])]
              | true =>
                  have hch : validate_ability o = .ok (true, "OK") := by
                    rw [hun, hpc, ebind_ok]
                    simp only [Bool.not_true, Bool.false_eq_true, if_false]
                    rw [hec, ebind_ok]
                    simp only [Bool.not_true, Bool.false_eq_true, if_false]
                    rw [hcc, hcd, ebind_ok]
                    rfl
                  have hcs : cooldownOkSpec (abilityValOf o) = true := by
                    rw [hkvs]
                    simp [cooldownOkSpec, hcd]
                  rw [hch]
                  constructor
                  · constructor
                    · intro _
                      exact ⟨hn, hd, hc, hab, hps, hes, hcs⟩
                    · intro _
                      rfl
                  · intro r hr
                    simp only [Except.ok.injEq] at hr
                    subst hr
                    exact Or.inl rfl

theorem mainValidate_sound (objs : List Obj) :
    ∀ out, mainValidate objs = .ok out →
      ∀ x ∈ out, validate_ability x = .ok (true, "OK") := by
  induction objs with
  | nil =>
      intro out h x hx
      have hout : ([] : List Obj) = out := by simpa [mainValidate] using h
      subst hout
      simp at hx
  | cons o' rest ih =>
      intro out h x hx
      unfold mainValidate at h
      rcases hv : validate_ability o' with e | r
      · rw [hv, ebind_err] at h
        cases h
      · rw [hv, ebind_ok] at h
        rcases ht : mainValidate rest with e | tail
        · rw [ht, ebind_err] at h
          cases h
        · rw [ht, ebind_ok] at h
          by_cases hr : r.1 = true
          · rw [if_pos hr, epure] at h
            obtain rfl := Except.ok.inj h
            rcases List.mem_cons.mp hx with rfl | hx'
            · rcases (validate_ability_master x).2 r hv with hOK | hFalse
              · rw [hv, hOK]
              · rw [hFalse.1] at hr
                cases hr
            · exact ih tail ht x hx'
          · rw [if_neg hr, epure] at h
            obtain rfl := Except.ok.inj h
            exact ih tail ht x hx

/-- C5: `validate_ability` accepts exactly the objects with the four required
keys whose ability value has `primitives` of Python length 2, truthy
(non-empty) `effects` and a `cooldown` key; every rejection reports the first
violated constraint; every record kept by the validation loop of `main`
satisfies all of those constraints. -/
theorem c5_validator_iff_first_violation (o : Obj) (objs : List Obj) :
    (validate_ability o = .ok (true, "OK") ↔
      (hasKey o "name" = true ∧ hasKey o "description" = true ∧
        hasKey o "color" = true ∧ hasKey o "ability" = true ∧
        primitivesOkSpec (abilityValOf o) = true ∧
        effectsOkSpec (abilityValOf o) = true ∧
        cooldownOkSpec (abilityValOf o) = true)) ∧
      (∀ msg, validate_ability o = .ok (false, msg) →
        firstViolation o = some msg) ∧
      (∀ out, mainValidate objs = .ok out →
        ∀ x ∈ out,
          hasKey x "name" = true ∧ hasKey x "description" = true ∧
            hasKey x "color" = true ∧ hasKey x "ability" = true ∧
            primitivesOkSpec (abilityValOf x) = true ∧
            effectsOkSpec (abilityValOf x) = true ∧
            cooldownOkSpec (abilityValOf x) = true) := by
  refine ⟨(validate_ability_master o).1, ?_, ?_⟩
  · intro msg hmsg
    rcases (validate_ability_master o).2 (false, msg) hmsg with h | h
    · simp at h
    · exact h.2
  · intro out h x hx
    exact (validate_ability_master x).1.mp (mainValidate_sound objs out h x hx)

/-- A well-formed candidate object. -/
def goodObj : Obj :=
  [("name", .str "Fireburst"), ("description", .str "d"), ("color", .str "red"),
   ("ability", .obj
     [("primitives", .arr [.str "fire", .str "fire"]),
      ("effects", .arr [.obj [("script", .arr [])]]),
      ("cooldown", .num 3)])]

/-- A candidate object missing its `description` field. -/
def badObj : Obj := [("name", .str "x")]

theorem c5_witness :
    validate_ability goodObj = .ok (true, "OK") ∧
      firstViolation badObj = some "Missing field: description" ∧
      (∀ x ∈ [goodObj],
        hasKey x "name" = true ∧ hasKey x "description" = true ∧
          hasKey x "color" = true ∧ hasKey x "ability" = true ∧
          primitivesOkSpec (abilityValOf x) = true ∧
          effectsOkSpec (abilityValOf x) = true ∧
          cooldownOkSpec (abilityValOf x) = true) :=
  ⟨(c5_validator_iff_first_violation goodObj []).1.mpr (by decide),
    (c5_validator_iff_first_violation badObj []).2.1 "Missing field: description"
      (by rfl),
    (c5_validator_iff_first_violation goodObj [goodObj]).2.2 [goodObj] (by rfl)⟩
